import Mathlib

/-!
# Verification of the plug-n-play-ws search engine

Shallow embedding of the text-search indexing and scoring engine of the
`plug-n-play-ws` repository: the text analyzer (`buildNGrams`,
`buildEdgeGrams`, `generateHighlights` from `src/utils/text-processing.ts`),
the shared search base class (`BaseSearchAdapter`), the in-memory adapter
(`MemoryAdapter`, LRU variant), the unified Redis adapter
(`UnifiedRedisAdapter`), the Upstash Redis adapter (`UpstashRedisAdapter`)
and the standalone `InMemorySearchIndex`.

Strings are modelled as `List Char` (`Str`); JavaScript `Map`/`Set` are
modelled as association lists / lists preserving insertion order, matching
JS iteration-order semantics.  Scores are modelled as `Rat` (JS numbers on
the values occurring here are exact small rationals).  Wall-clock fields
(`took`, TTLs) are not modelled (set to `0` / dropped): no claim concerns
them.
-/

set_option maxRecDepth 10000

abbrev Str := List Char

/-- Convert a Lean string literal to the `List Char` representation. -/
def str (s : String) : Str := s.data

/-- Model of the JS regex class `\w` (`[A-Za-z0-9_]`). -/
def isWordChar (c : Char) : Bool := c.isAlphanum || c == '_'

/-- Model of the JS regex class `\s` on the ASCII whitespace characters. -/
def isSpaceChar (c : Char) : Bool :=
  c == ' ' || c == '\t' || c == '\n' || c == '\r' || c == '\x0b' || c == '\x0c'

/-- Model of JS `String.prototype.toLowerCase` on ASCII (per character). -/
def toLowerChar (c : Char) : Char :=
  if c.isUpper then Char.ofNat (c.toNat + 32) else c

/-- A character that is neither a word character nor whitespace
(the class `[^\w\s]` in the source's normalization regex). -/
def isOtherChar (c : Char) : Bool := !isWordChar c && !isSpaceChar c

/-- JS `replace(/[^\w\s]/g, ' ')`: every non-word non-space character
becomes a single space (per character). -/
def replaceNonWord (s : Str) : Str :=
  s.map (fun c => if isOtherChar c then ' ' else c)

/-- Replace every maximal run of characters satisfying `p` by the single
character `r`.  With `p := isSpaceChar`, `r := ' '` this is JS
`replace(/\s+/g, ' ')`. -/
def collapseRuns (p : Char → Bool) (r : Char) : Str → Str
  | [] => []
  | [c] => if p c then [r] else [c]
  | c :: d :: rest =>
    if p c && p d then collapseRuns p r (d :: rest)
    else (if p c then r else c) :: collapseRuns p r (d :: rest)

/-- JS `replace(/\s+/g, ' ')`. -/
def collapseWS (s : Str) : Str := collapseRuns isSpaceChar ' ' s

/-- Right-trim: drop trailing whitespace characters. -/
def trimRight : Str → Str
  | [] => []
  | c :: rest =>
    match trimRight rest with
    | [] => if isSpaceChar c then [] else [c]
    | r => c :: r

/-- JS `String.prototype.trim`: drop whitespace at both ends. -/
def trimStr (s : Str) : Str := trimRight (s.dropWhile isSpaceChar)

/-- JS `String.prototype.split(sep)` for a single-character separator:
keeps empty pieces; the empty string splits to `[""]`. -/
def splitAux (sep : Char) (cur : Str) : Str → List Str
  | [] => [cur.reverse]
  | c :: rest =>
    if c == sep then cur.reverse :: splitAux sep [] rest
    else splitAux sep (c :: cur) rest

/-- JS `split(c)`. -/
def splitOnChar (sep : Char) (s : Str) : List Str := splitAux sep [] s

/-- JS `split(/\s+/)`: splitting on whitespace runs coincides with
first collapsing each run to a single `' '` and splitting on `' '`. -/
def splitWS (s : Str) : List Str := splitOnChar ' ' (collapseWS s)

/-- The source's text normalization
(`text.toLowerCase().replace(/[^\w\s]/g, ' ').replace(/\s+/g, ' ').trim()`),
from `src/utils/text-processing.ts`. -/
def normalizeText (text : Str) : Str :=
  trimStr (collapseWS (replaceNonWord (text.map toLowerChar)))

/-- Deduplication keeping the first occurrence (JS `[...new Set(xs)]`),
with an explicit seen-accumulator so the definition is structural. -/
def dedupAux (seen : List Str) : List Str → List Str
  | [] => []
  | x :: xs => if x ∈ seen then dedupAux seen xs else x :: dedupAux (x :: seen) xs

/-- JS `[...new Set(xs)]`. -/
def dedupKeepFirst (l : List Str) : List Str := dedupAux [] l

/-- The inclusive range `[lo, hi]` as a list (empty when `lo > hi`). -/
def rangeFromTo (lo hi : Nat) : List Nat :=
  (List.range (hi + 1 - lo)).map (lo + ·)

/-- All length-`n` sliding windows of a word (the inner loop of
`buildNGrams`); empty when the word is shorter than `n`. -/
def slidingWindows (n : Nat) (word : Str) : List Str :=
  if n ≤ word.length then
    (List.range (word.length - n + 1)).map (fun i => (word.drop i).take n)
  else []

/-- `buildNGrams(text, n)` from `src/utils/text-processing.ts`. -/
def buildNGrams (text : Str) (n : Nat) : List Str :=
  dedupKeepFirst (((splitOnChar ' ' (normalizeText text))).flatMap (slidingWindows n))

/-- The per-word edge-gram prefixes of lengths `minGram ..
min(maxGram, word.length)` (the inner loop of `buildEdgeGrams`). -/
def edgePrefixes (minGram maxGram : Nat) (word : Str) : List Str :=
  (rangeFromTo minGram (min maxGram word.length)).map (fun len => word.take len)

/-- `buildEdgeGrams(text, minGram, maxGram)` from
`src/utils/text-processing.ts`. -/
def buildEdgeGrams (text : Str) (minGram maxGram : Nat) : List Str :=
  if minGram > maxGram then []
  else
    dedupKeepFirst
      (((splitOnChar ' ' (normalizeText text))).flatMap (edgePrefixes minGram maxGram))

/-! ## Spec-worded text analyzer (for the refinement claims C7 and C8)

The spec describes normalization as: lowercase; replace every *run* of
non-word/non-space characters with a single space; trim; collapse internal
whitespace runs to one space.  The definitions below follow that wording;
the claims assert they agree with the source definitions above. -/

/-- Normalization as worded by the spec: lowercase, each run of
non-word/non-space characters becomes one space, trim, collapse
internal whitespace runs. -/
def normalizeTextSpec (text : Str) : Str :=
  collapseWS (trimStr (collapseRuns isOtherChar ' ' (text.map toLowerChar)))

/-- `buildNGrams` as worded by the spec: spec normalization, split on
spaces, sliding windows of length `n` per word of length ≥ n,
deduplicated. -/
def buildNGramsSpec (text : Str) (n : Nat) : List Str :=
  dedupKeepFirst (((splitOnChar ' ' (normalizeTextSpec text))).flatMap (slidingWindows n))

/-- `buildEdgeGrams` as worded by the spec: empty when
`minGram > maxGram`; otherwise for each normalized word the prefixes of
lengths `minGram .. min(maxGram, word.length)`, deduplicated. -/
def buildEdgeGramsSpec (text : Str) (minGram maxGram : Nat) : List Str :=
  if minGram > maxGram then []
  else
    dedupKeepFirst
      (((splitOnChar ' ' (normalizeTextSpec text))).flatMap (edgePrefixes minGram maxGram))

/-! ### Canonical word runs

Both normalizations produce (up to empty pieces, which generate no grams)
the list of maximal word-character runs of the lowercased text.  The
auxiliary functions below are shaped so the inductions align. -/

/-- Maximal runs of non-space characters, with an accumulator for the
run currently being read (stored reversed). -/
def nonSpaceRunsAux (cur : Str) : Str → List Str
  | [] => if cur.isEmpty then [] else [cur.reverse]
  | c :: rest =>
    if isSpaceChar c then
      if cur.isEmpty then nonSpaceRunsAux [] rest
      else cur.reverse :: nonSpaceRunsAux [] rest
    else nonSpaceRunsAux (c :: cur) rest

/-- Maximal runs of non-space characters. -/
def nonSpaceRuns (s : Str) : List Str := nonSpaceRunsAux [] s

/-- Maximal runs of word characters, with an accumulator. -/
def wordRunsAux (cur : Str) : Str → List Str
  | [] => if cur.isEmpty then [] else [cur.reverse]
  | c :: rest =>
    if isWordChar c then wordRunsAux (c :: cur) rest
    else
      if cur.isEmpty then wordRunsAux [] rest
      else cur.reverse :: wordRunsAux [] rest

/-- Maximal runs of word characters. -/
def wordRuns (s : Str) : List Str := wordRunsAux [] s

/-- A string whose whitespace characters are all the plain space `' '`
(true of every `collapseWS` output). -/
def onlyPlainSpaces (s : Str) : Prop := ∀ c ∈ s, isSpaceChar c = true → c = ' '

/-- The seen-set after `dedupAux` has processed `l` starting from `seen`. -/
def seenAfter (seen : List Str) (l : List Str) : List Str :=
  l.foldl (fun s x => if x ∈ s then s else x :: s) seen

/-! ## Highlight generation (`generateHighlights`)

`generateHighlights(content, searchTerms, maxHighlights = 3,
contextLength = 30)` from `src/utils/text-processing.ts`.  The highlight
budget is a single counter shared by all terms.  The
`snippet.replace(new RegExp(term, "gi"), "<mark>$&</mark>")` step is
modelled as a literal case-insensitive global replacement (`markAll`),
which is what the regex denotes for terms without regex metacharacters;
the fallible behaviour of the raw `RegExp` constructor is modelled
separately below (`generateHighlightsJS`). -/

def mopen : Str := str "<mark>"

def mclose : Str := str "</mark>"

def ellipsisMark : Str := str "..."

/-- JS `replace` with an empty pattern and flag `g`: the marker is
inserted at every position of the string. -/
def markEmpty : Str → Str
  | [] => mopen ++ mclose
  | c :: r => mopen ++ mclose ++ c :: markEmpty r

/-- One left-to-right pass wrapping every (non-overlapping, leftmost)
case-insensitive occurrence of the nonempty lowercased term in
`<mark>...</mark>`.  The fuel argument starts at the string length and
dominates it throughout, so the equations are those of the JS `replace`
loop. -/
def markScan (termLower : Str) : Nat → Str → Str
  | 0, s => s
  | _ + 1, [] => []
  | fuel + 1, c :: r =>
    if termLower.isPrefixOf ((c :: r).map toLowerChar) then
      mopen ++ (c :: r).take termLower.length ++ mclose ++
        markScan termLower fuel ((c :: r).drop termLower.length)
    else c :: markScan termLower fuel r

/-- `snippet.replace(new RegExp(term, "gi"), "<mark>$&</mark>")` as a
literal case-insensitive global replacement. -/
def markAll (s term : Str) : Str :=
  if term.isEmpty then markEmpty s
  else markScan (term.map toLowerChar) s.length s

/-- JS `hay.indexOf(needle, pos)` (first occurrence at a position
`≥ pos`), where `rest = hay.drop pos`. -/
def findFrom (needle : Str) : Str → Nat → Option Nat
  | [], pos => if needle.isPrefixOf [] then some pos else none
  | c :: r, pos =>
    if needle.isPrefixOf (c :: r) then some pos else findFrom needle r (pos + 1)

/-- All positions `≥ pos` at which `needle` occurs (where
`rest = hay.drop pos`); the successive values of `index` in the
highlight loop, which restarts each search at `index + 1`. -/
def occAux (needle : Str) : Str → Nat → List Nat
  | [], pos => if needle.isPrefixOf [] then [pos] else []
  | c :: r, pos =>
    (if needle.isPrefixOf (c :: r) then [pos] else []) ++ occAux needle r (pos + 1)

/-- The snippet built for a match of `term` at position `idx`:
`contextLength` characters of context on each side, every
case-insensitive occurrence of the term inside the window wrapped in the
highlight marker, and an ellipsis on each side that does not reach the
content boundary. -/
def snippetAt (content term : Str) (ctx : Nat) (idx : Nat) : Str :=
  let start := idx - ctx
  let stop := min content.length (idx + term.length + ctx)
  let snippet := (content.drop start).take (stop - start)
  (if 0 < start then ellipsisMark else []) ++ markAll snippet term ++
    (if stop < content.length then ellipsisMark else [])

/-- The `while` loop of `generateHighlights` for one term: starting the
search at `startPos`, collect a snippet per occurrence while the shared
budget (`maxHighlights - highlights.length`) is positive. -/
def collectTerm (content term : Str) (ctx : Nat) : Nat → Nat → List Str
  | 0, _ => []
  | budget + 1, startPos =>
    match findFrom (term.map toLowerChar) ((content.map toLowerChar).drop startPos) startPos with
    | none => []
    | some idx => snippetAt content term ctx idx :: collectTerm content term ctx budget (idx + 1)

/-- The outer loop of `generateHighlights` over the term list, threading
the shared `highlights` accumulator. -/
def generateHighlightsAux (content : Str) (maxH ctx : Nat) : List Str → List Str → List Str
  | acc, [] => acc
  | acc, term :: rest =>
    generateHighlightsAux content maxH ctx
      (acc ++ collectTerm content term ctx (maxH - acc.length) 0) rest

/-- `generateHighlights(content, searchTerms, maxHighlights, contextLength)`
from `src/utils/text-processing.ts` (defaults `maxHighlights = 3`,
`contextLength = 30`). -/
def generateHighlights (content : Str) (searchTerms : List Str) (maxH ctx : Nat) : List Str :=
  generateHighlightsAux content maxH ctx [] searchTerms

/-- All occurrence positions of a term in the content (case-insensitive,
step-1 restart as in the source loop). -/
def termOccurrences (content term : Str) : List Nat :=
  occAux (term.map toLowerChar) (content.map toLowerChar) 0

/-- The unbounded snippet list of one term: one snippet per occurrence,
in order.  The claim states that `generateHighlights` returns the first
`maxHighlights` elements of the concatenation of these lists — the
budget is aggregate across the whole term set. -/
def termSnippetsAll (content term : Str) (ctx : Nat) : List Str :=
  (termOccurrences content term).map (snippetAt content term ctx)

/-! ## The unescaped `RegExp` constructor (claim C10)

`generateHighlights` builds `new RegExp(term, "gi")` from the raw search
term.  The ECMAScript `RegExp` constructor throws a `SyntaxError` on a
syntactically invalid pattern such as `"("`.  `regexSyntaxOk` models
pattern-syntax acceptance on the simple fragment exercised here
(group parentheses must balance, quantifiers need a preceding atom,
a trailing backslash is invalid); `generateHighlightsJS` is the
highlight generator with that fallible constructor modelled. -/

def regexSyntaxOk : Str → Nat → Bool → Bool
  | [], depth, _ => depth == 0
  | c :: rest, depth, prevAtom =>
    if c == '(' then regexSyntaxOk rest (depth + 1) false
    else if c == ')' then decide (0 < depth) && regexSyntaxOk rest (depth - 1) true
    else if c == '*' || c == '+' || c == '?' then prevAtom && regexSyntaxOk rest depth false
    else if c == '\\' then
      match rest with
      | [] => false
      | _ :: r => regexSyntaxOk r depth true
    else regexSyntaxOk rest depth true

/-- `new RegExp(term, "gi")` succeeds exactly when this holds. -/
def regexValid (term : Str) : Bool := regexSyntaxOk term 0 false

/-- `collectTerm` with the `RegExp` construction modelled as fallible:
the constructor runs inside the loop body, so the error surfaces exactly
when a first occurrence is found while budget remains. -/
def collectTermE (content term : Str) (ctx : Nat) : Nat → Nat → Except Unit (List Str)
  | 0, _ => .ok []
  | budget + 1, startPos =>
    match findFrom (term.map toLowerChar) ((content.map toLowerChar).drop startPos) startPos with
    | none => .ok []
    | some idx =>
      if regexValid term then
        match collectTermE content term ctx budget (idx + 1) with
        | .ok rest => .ok (snippetAt content term ctx idx :: rest)
        | .error e => .error e
      else .error ()

def generateHighlightsAuxE (content : Str) (maxH ctx : Nat) :
    List Str → List Str → Except Unit (List Str)
  | acc, [] => .ok acc
  | acc, term :: rest =>
    match collectTermE content term ctx (maxH - acc.length) 0 with
    | .ok snips => generateHighlightsAuxE content maxH ctx (acc ++ snips) rest
    | .error e => .error e

/-- `generateHighlights` with the throwing `new RegExp(term, "gi")`
modelled (`.error ()` is the `SyntaxError`). -/
def generateHighlightsJS (content : Str) (searchTerms : List Str) (maxH ctx : Nat) :
    Except Unit (List Str) :=
  generateHighlightsAuxE content maxH ctx [] searchTerms

/-! ## Search data model (`src/types.ts`, `src/adapters/base-search.ts`)

Association lists model JS `Map`s (insertion-order iteration; `set` on an
existing key updates in place, a new key is appended); plain lists with
`setAdd` model JS `Set`s. -/

/-- `Map.get`. -/
def alLookup {α : Type} : List (Str × α) → Str → Option α
  | [], _ => none
  | (k2, v) :: rest, k => if k2 = k then some v else alLookup rest k

/-- `Map.set`: update in place, or append a new key at the end. -/
def alSet {α : Type} : List (Str × α) → Str → α → List (Str × α)
  | [], k, v => [(k, v)]
  | (k2, v2) :: rest, k, v =>
    if k2 = k then (k, v) :: rest else (k2, v2) :: alSet rest k v

/-- `Map.delete` (preserves the order of the remaining entries). -/
def alRemove {α : Type} (l : List (Str × α)) (k : Str) : List (Str × α) :=
  l.filter (fun p => p.1 ≠ k)

/-- `Set.add`: no-op on a member, else appended at the end. -/
def setAdd (l : List Str) (x : Str) : List Str := if x ∈ l then l else l ++ [x]

/-- `SearchConfig` from `src/adapters/base-search.ts`. -/
structure SearchConfig where
  ngramSize : Nat
  minEdgegram : Nat
  maxEdgegram : Nat
  exactMatchBoost : Rat
  ngramWeight : Rat
  edgegramWeight : Rat
  minScore : Rat

/-- `DEFAULT_SEARCH_CONFIG` from `src/adapters/base-search.ts`. -/
def DEFAULT_SEARCH_CONFIG : SearchConfig :=
  ⟨3, 2, 10, 100, 1/2, 1, 1/10⟩

/-- `DocumentData`: stored content plus optional metadata (metadata
values modelled as strings). -/
structure DocData where
  content : Str
  metadata : Option (List (Str × Str))
deriving DecidableEq

/-- `SearchQuery` from `src/types.ts` (the `streaming` flag is unused by
the search paths modelled here). -/
structure SearchQuery where
  query : Str
  limit : Option Nat
  offset : Option Nat
  filters : Option (List (Str × Str))

/-- `SearchResult`: `data` is the merged `{ content, ...metadata }`
record, modelled structurally as the `DocData` it is merged from. -/
structure SearchResult where
  id : Str
  score : Rat
  data : DocData
  highlights : List Str
deriving DecidableEq

/-- `SearchResponse` (`took` is wall-clock time, modelled as `0`). -/
structure SearchResponse where
  query : Str
  results : List SearchResult
  total : Nat
  took : Nat
  hasMore : Bool

/-- `BaseSearchAdapter.generateSearchTerms`. -/
def generateSearchTerms (cfg : SearchConfig) (content : Str) : List Str × List Str :=
  (buildNGrams content cfg.ngramSize,
   buildEdgeGrams content cfg.minEdgegram cfg.maxEdgegram)

/-- `BaseSearchAdapter.normalizeSearchQuery`: lowercase, split on
whitespace runs, drop empty tokens; valid iff any term remains. -/
def normalizeSearchQuery (q : SearchQuery) : List Str × Bool :=
  let searchTerms := (splitWS (q.query.map toLowerChar)).filter (fun t => decide (0 < t.length))
  (searchTerms, !searchTerms.isEmpty)

/-- `BaseSearchAdapter.createEmptyResponse`. -/
def createEmptyResponse (q : SearchQuery) : SearchResponse :=
  ⟨q.query, [], 0, 0, false⟩

/-- `BaseSearchAdapter.calculateRelevanceScore`: exact-word boost once
per matching query term, plus the weighted n-gram/edge-gram match
contributions. -/
def calculateRelevanceScore (cfg : SearchConfig) (documentContent : Str)
    (searchTerms : List Str) (ngramMatches edgegramMatches : Rat) : Rat :=
  let words := splitWS (documentContent.map toLowerChar)
  let exact := searchTerms.foldl
    (fun score term => if (term.map toLowerChar) ∈ words then score + cfg.exactMatchBoost else score) 0
  exact + ngramMatches * cfg.ngramWeight + edgegramMatches * cfg.edgegramWeight

/-- Stable insertion into a score-descending list (the JS stable
`sort((a, b) => b.score - a.score)`). -/
def insertByScoreDesc {α : Type} (score : α → Rat) (r : α) : List α → List α
  | [] => [r]
  | x :: xs => if score r < score x then x :: insertByScoreDesc score r xs else r :: x :: xs

/-- Stable score-descending sort. -/
def sortByScoreDesc {α : Type} (score : α → Rat) (l : List α) : List α :=
  l.foldr (insertByScoreDesc score) []

/-- The `offset` of a query (`query.offset || 0`). -/
def queryOffset (q : SearchQuery) : Nat :=
  match q.offset with
  | some o => o
  | none => 0

/-- The `limit` of a query (`query.limit || 10`; note `0` is falsy in JS,
so an explicit limit of `0` also yields `10`). -/
def queryLimit (q : SearchQuery) : Nat :=
  match q.limit with
  | some l => if l = 0 then 10 else l
  | none => 10

/-- The candidate-filtering loop of
`BaseSearchAdapter.processSearchResults`: skip candidates whose score is
below `minScore`, attach highlights to the rest. -/
def filteredCandidates (cfg : SearchConfig) (searchTerms : List Str)
    (documentScores : List (Str × (Rat × DocData))) : List SearchResult :=
  documentScores.foldl
    (fun acc e =>
      if e.2.1 < cfg.minScore then acc
      else acc ++ [(⟨e.1, e.2.1, e.2.2, generateHighlights e.2.2.content searchTerms 3 30⟩ : SearchResult)])
    []

/-- `BaseSearchAdapter.processSearchResults`: drop candidates below
`minScore`, attach highlights, sort score-descending, paginate. -/
def processSearchResults (cfg : SearchConfig) (q : SearchQuery) (searchTerms : List Str)
    (documentScores : List (Str × (Rat × DocData))) : SearchResponse :=
  let filtered := filteredCandidates cfg searchTerms documentScores
  let sorted := sortByScoreDesc SearchResult.score filtered
  let offset := queryOffset q
  let limit := queryLimit q
  ⟨q.query, (sorted.drop offset).take limit, filtered.length, 0,
   decide (offset + limit < filtered.length)⟩

/-! ## In-memory adapter (`MemoryAdapter`, LRU variant from
`src/adapters/memory.ts`) -/

/-- The mutable state of a `MemoryAdapter` instance (sessions omitted:
no claim concerns them). -/
structure MemoryState where
  searchConfig : SearchConfig
  documents : List (Str × DocData)
  documentAccessOrder : List (Str × Nat)
  ngramIndex : List (Str × List Str)
  edgegramIndex : List (Str × List Str)
  maxDocuments : Nat
  accessCounter : Nat

/-- A fresh `MemoryAdapter` with the given config and document cap. -/
def emptyMemoryState (cfg : SearchConfig) (maxDocs : Nat) : MemoryState :=
  ⟨cfg, [], [], [], [], maxDocs, 0⟩

/-- Add a document id under a gram (`index.get(gram).add(id)`, creating
the posting set on first use). -/
def indexAddId : List (Str × List Str) → Str → Str → List (Str × List Str)
  | [], gram, id => [(gram, [id])]
  | (g, ids) :: rest, gram, id =>
    if g = gram then (g, setAdd ids id) :: rest else (g, ids) :: indexAddId rest gram id

/-- Index every gram of a list for a document id. -/
def addGrams (idx : List (Str × List Str)) (grams : List Str) (id : Str) :
    List (Str × List Str) :=
  grams.foldl (fun ix g => indexAddId ix g id) idx

/-- `MemoryAdapter.removeFromIndex` on one inverted index: delete the id
from every posting set and drop emptied sets. -/
def removeIdFromIndex (id : Str) (idx : List (Str × List Str)) : List (Str × List Str) :=
  (idx.map (fun p => (p.1, p.2.filter (fun x => x ≠ id)))).filter (fun p => !p.2.isEmpty)

/-- `MemoryAdapter.findLRUDocument`: entry with the smallest access
counter (first one wins ties; the JS scan starts from `Infinity`). -/
def findLRUDocument (order : List (Str × Nat)) : Option Str :=
  (order.foldl
    (fun best p =>
      match best with
      | none => some p
      | some q => if p.2 < q.2 then some p else best)
    none).map (fun p => p.1)

/-- `MemoryAdapter.removeDocument`. -/
def memoryRemoveDocument (id : Str) (st : MemoryState) : MemoryState :=
  { st with
    documents := alRemove st.documents id
    documentAccessOrder := alRemove st.documentAccessOrder id
    ngramIndex := removeIdFromIndex id st.ngramIndex
    edgegramIndex := removeIdFromIndex id st.edgegramIndex }

/-- The `while (documents.size >= maxDocuments)` eviction loop of
`MemoryAdapter.indexDocument`; the fuel argument (one more than the
document count) dominates the loop, which removes a document per
iteration or breaks. -/
def evictLoop : Nat → MemoryState → MemoryState
  | 0, st => st
  | fuel + 1, st =>
    if st.maxDocuments ≤ st.documents.length then
      match findLRUDocument st.documentAccessOrder with
      | some lruId => evictLoop fuel (memoryRemoveDocument lruId st)
      | none => st
    else st

/-- `MemoryAdapter.indexDocument`: retract prior postings for the id,
evict LRU documents while over the cap, store the document, bump the
access counter, and write the new postings. -/
def memoryIndexDocument (id : Str) (content : Str) (metadata : Option (List (Str × Str)))
    (st : MemoryState) : MemoryState :=
  let st1 := { st with
    ngramIndex := removeIdFromIndex id st.ngramIndex
    edgegramIndex := removeIdFromIndex id st.edgegramIndex }
  let st2 := evictLoop (st1.documents.length + 1) st1
  let counter := st2.accessCounter + 1
  let st3 := { st2 with
    documents := alSet st2.documents id ⟨content, metadata⟩
    documentAccessOrder := alSet st2.documentAccessOrder id counter
    accessCounter := counter }
  let grams := generateSearchTerms st.searchConfig content
  { st3 with
    ngramIndex := addGrams st3.ngramIndex grams.1 id
    edgegramIndex := addGrams st3.edgegramIndex grams.2 id }

/-- `MemoryAdapter.updateDocumentAccess`. -/
def updateDocumentAccess (id : Str) (st : MemoryState) : MemoryState :=
  if (alLookup st.documents id).isSome then
    { st with
      documentAccessOrder := alSet st.documentAccessOrder id (st.accessCounter + 1)
      accessCounter := st.accessCounter + 1 }
  else st

/-- One posting hit during score accumulation: create the entry with
score `0` on first touch (only if the document still exists), then add
the weight. -/
def scoreBump (documents : List (Str × DocData)) (w : Rat)
    (scores : List (Str × (Rat × DocData))) (docId : Str) :
    List (Str × (Rat × DocData)) :=
  let scores1 :=
    match alLookup scores docId with
    | some _ => scores
    | none =>
      match alLookup documents docId with
      | some doc => scores ++ [(docId, (0, doc))]
      | none => scores
  match alLookup scores1 docId with
  | some sd => alSet scores1 docId (sd.1 + w, sd.2)
  | none => scores1

/-- One gram family's scoring pass of `MemoryAdapter.search`: for each
gram, every document in its posting set accumulates the flat weight
`w`. -/
def scoreGramPass (documents : List (Str × DocData)) (idx : List (Str × List Str))
    (w : Rat) (grams : List Str) (scores : List (Str × (Rat × DocData))) :
    List (Str × (Rat × DocData)) :=
  grams.foldl
    (fun sc g =>
      match alLookup idx g with
      | some ids => ids.foldl (scoreBump documents w) sc
      | none => sc)
    scores

/-- The accumulation phase of `MemoryAdapter.search` over all query
terms: per term, `+ngramWeight` per n-gram posting hit and a flat
`+edgegramWeight` per edge-gram posting hit. -/
def memoryAccumulateScores (st : MemoryState) (searchTerms : List Str) :
    List (Str × (Rat × DocData)) :=
  searchTerms.foldl
    (fun sc term =>
      let grams := generateSearchTerms st.searchConfig term
      let sc1 := scoreGramPass st.documents st.ngramIndex st.searchConfig.ngramWeight grams.1 sc
      scoreGramPass st.documents st.edgegramIndex st.searchConfig.edgegramWeight grams.2 sc1)
    []

/-- The list of gram keys `MemoryAdapter.search` looks up in the
inverted indexes for a query (empty when the query is invalid and the
empty-response branch returns first). -/
def memorySearchLookups (st : MemoryState) (q : SearchQuery) : List Str :=
  let norm := normalizeSearchQuery q
  if !norm.2 then []
  else norm.1.flatMap (fun term =>
    let grams := generateSearchTerms st.searchConfig term
    grams.1 ++ grams.2)

/-- `MemoryAdapter.search`: returns the response and the state after the
LRU access bumps of the final scoring pass. -/
def memorySearch (q : SearchQuery) (st : MemoryState) : SearchResponse × MemoryState :=
  let norm := normalizeSearchQuery q
  if !norm.2 then (createEmptyResponse q, st)
  else
    let searchTerms := norm.1
    let scores := memoryAccumulateScores st searchTerms
    let finalScores := scores.map
      (fun e => (e.1, (calculateRelevanceScore st.searchConfig e.2.2.content searchTerms e.2.1 0, e.2.2)))
    let st2 := scores.foldl (fun s e => updateDocumentAccess e.1 s) st
    (processSearchResults st.searchConfig q searchTerms finalScores, st2)

/-! ## `InMemorySearchIndex` (`src/index.ts` / storage component)

The standalone search index with filter support: padded n-grams over the
document's string fields, score = fraction of query n-grams matched,
filters compared against the stored data record. -/

/-- `InMemorySearchIndexConfig` (defaults: `ngramSize = 3`,
`searchFields = []`, `caseSensitive = false`). -/
structure IMSIConfig where
  ngramSize : Nat
  searchFields : List Str
  caseSensitive : Bool

/-- The state of an `InMemorySearchIndex`: documents (schema-free string
records) and the padded-n-gram inverted index. -/
structure IMSIState where
  documents : List (Str × List (Str × Str))
  ngramIndex : List (Str × List Str)

/-- `SearchOptions` (defaults `limit = 10`, `offset = 0`,
`filters = {}` via destructuring defaults, so an explicit `0` stays
`0`). -/
structure SearchOptions where
  limit : Option Nat
  offset : Option Nat
  filters : List (Str × Str)

/-- A result of `InMemorySearchIndex.search` (`highlights` is the
field-name → highlighted-text record). -/
structure IMSIResult where
  id : Str
  score : Rat
  data : List (Str × Str)
  highlights : List (Str × Str)
deriving DecidableEq

/-- `InMemorySearchIndex.generateNgrams`: pad with `__` on both sides,
then all sliding windows of the configured size (not deduplicated). -/
def imsiGenerateNgrams (cfg : IMSIConfig) (text : Str) : List Str :=
  let t := if cfg.caseSensitive then text else text.map toLowerChar
  let padded := str "__" ++ t ++ str "__"
  if cfg.ngramSize ≤ padded.length then
    (List.range (padded.length - cfg.ngramSize + 1)).map
      (fun i => (padded.drop i).take cfg.ngramSize)
  else []

/-- `InMemorySearchIndex.extractSearchableText`. -/
def imsiExtractTexts (cfg : IMSIConfig) (data : List (Str × Str)) : List Str :=
  if cfg.searchFields.isEmpty then data.map (fun p => p.2)
  else cfg.searchFields.filterMap (fun f => alLookup data f)

/-- One n-gram posting hit: `scores.set(docId, (scores.get(docId) || 0) + 1)`. -/
def imsiBump (scores : List (Str × Nat)) (docId : Str) : List (Str × Nat) :=
  match alLookup scores docId with
  | some s => alSet scores docId (s + 1)
  | none => scores ++ [(docId, 1)]

/-- Accumulate match counts over the query's n-grams. -/
def imsiAccumulate (idx : List (Str × List Str)) (queryNgrams : List Str) :
    List (Str × Nat) :=
  queryNgrams.foldl
    (fun sc g =>
      match alLookup idx g with
      | some ids => ids.foldl imsiBump sc
      | none => sc)
    []

/-- The filter check of `InMemorySearchIndex.search`: a document passes
iff every filter key's value equals the corresponding field of the
stored record (`document[filterKey] !== filterValue` fails, and an
absent field never equals a filter value). -/
def imsiPasses (filters : List (Str × Str)) (document : List (Str × Str)) : Bool :=
  filters.all (fun kv => decide (alLookup document kv.1 = some kv.2))

/-- `InMemorySearchIndex.generateHighlights` (per-field; the regex
replacement is modelled as the literal case-insensitive `markAll`, and
case-sensitively when configured). -/
def imsiHighlights (cfg : IMSIConfig) (document : List (Str × Str)) (query : Str) :
    List (Str × Str) :=
  let texts := imsiExtractTexts cfg document
  let fieldNames := if cfg.searchFields.isEmpty then document.map (fun p => p.1)
    else cfg.searchFields
  (List.zip fieldNames texts).filterMap
    (fun ft =>
      let tl := if cfg.caseSensitive then ft.2 else ft.2.map toLowerChar
      let ql := if cfg.caseSensitive then query else query.map toLowerChar
      if decide (ql <:+: tl) then some (ft.1, markAll ft.2 query) else none)

/-- The result-building loop of `InMemorySearchIndex.search`: skip
missing documents, skip documents failing any filter, normalize the
score by the query n-gram count. -/
def imsiBuildResults (st : IMSIState) (cfg : IMSIConfig) (query : Str)
    (filters : List (Str × Str)) (queryNgrams : List Str)
    (scores : List (Str × Nat)) : List IMSIResult :=
  scores.foldl
    (fun acc e =>
      match alLookup st.documents e.1 with
      | none => acc
      | some document =>
        if imsiPasses filters document then
          acc ++ [(⟨e.1, (e.2 : Rat) / (queryNgrams.length : Rat), document,
                    imsiHighlights cfg document query⟩ : IMSIResult)]
        else acc)
    []

/-- `InMemorySearchIndex.search`. -/
def imsiSearch (cfg : IMSIConfig) (st : IMSIState) (query : Str) (opts : SearchOptions) :
    List IMSIResult :=
  let limit := opts.limit.getD 10
  let offset := opts.offset.getD 0
  if (trimStr query).isEmpty then []
  else
    let queryNgrams := imsiGenerateNgrams cfg query
    let scores := imsiAccumulate st.ngramIndex queryNgrams
    let results := imsiBuildResults st cfg query opts.filters queryNgrams scores
    ((sortByScoreDesc IMSIResult.score results).drop offset).take limit

/-! ## Redis-backed adapters (`UpstashRedisAdapter`,
`UnifiedRedisAdapter`)

The remote key-value store is modelled structurally: document hashes as
`RedisDoc` records (the JSON encoding/decoding of the `terms` and
`metadata` fields is modelled as the identity on well-formed data) and
Redis sets as lists with `setAdd` semantics.  TTLs (`EXPIRE`) and the
`indexedAt` timestamp are not modelled: no claim concerns expiry or
time. -/

/-- A stored document hash: `content`, the optional `terms` list (only
written by `UnifiedRedisAdapter`), and optional metadata. -/
structure RedisDoc where
  content : Str
  terms : Option (List Str)
  metadata : Option (List (Str × Str))
deriving DecidableEq

/-- The key-value store state. -/
structure RedisState where
  docs : List (Str × RedisDoc)
  sets : List (Str × List Str)
deriving DecidableEq

def emptyRedisState : RedisState := ⟨[], []⟩

/-- `SMEMBERS` (a missing key is the empty set). -/
def smembers (st : RedisState) (k : Str) : List Str := (alLookup st.sets k).getD []

/-- `SADD`. -/
def saddCmd (st : RedisState) (k m : Str) : RedisState :=
  { st with sets := alSet st.sets k (setAdd (smembers st k) m) }

/-- `SREM`. -/
def sremCmd (st : RedisState) (k m : Str) : RedisState :=
  { st with sets := alSet st.sets k ((smembers st k).filter (fun x => x ≠ m)) }

/-- `DEL` of a document key. -/
def delDocCmd (st : RedisState) (k : Str) : RedisState :=
  { st with docs := alRemove st.docs k }

/-- `` `${keyPrefix}${type}:${id}` ``. -/
def getKey (keyPrefix ty id : Str) : Str := keyPrefix ++ ty ++ str ":" ++ id

/-- `UpstashRedisAdapter.indexDocument` (`src/adapters/upstash-redis.ts`):
stores the document hash and adds the new postings — note that it never
retracts prior postings for the id. -/
def upstashIndexDocument (keyPrefix id content : Str)
    (metadata : Option (List (Str × Str))) (st : RedisState) : RedisState :=
  let docKey := getKey keyPrefix (str "doc") id
  let st1 := { st with docs := alSet st.docs docKey ⟨content, none, metadata⟩ }
  let st2 := saddCmd st1 (getKey keyPrefix (str "docs") (str "all")) id
  let ngrams := buildNGrams content 3
  let edgegrams := buildEdgeGrams content 2 10
  let st3 := ngrams.foldl (fun s g => saddCmd s (getKey keyPrefix (str "ngram") g) id) st2
  edgegrams.foldl (fun s g => saddCmd s (getKey keyPrefix (str "edgegram") g) id) st3

/-- `UnifiedRedisAdapter.removeDocument`: when the stored document
tracks its terms, retract the id from each term's n-gram and edge-gram
posting keys, then delete the document and its `docs:all` membership;
otherwise just clean up the references. -/
def unifiedRemoveDocument (keyPrefix id : Str) (st : RedisState) : RedisState :=
  let docKey := getKey keyPrefix (str "doc") id
  let finish := fun (s : RedisState) =>
    sremCmd (delDocCmd s docKey) (getKey keyPrefix (str "docs") (str "all")) id
  match alLookup st.docs docKey with
  | some doc =>
    match doc.terms with
    | some terms =>
      finish (terms.foldl
        (fun s term =>
          sremCmd (sremCmd s (getKey keyPrefix (str "ngram") term) id)
            (getKey keyPrefix (str "edgegram") term) id)
        st)
    | none => finish st
  | none => finish st

/-- `UnifiedRedisAdapter.indexDocument`: remove the previous version
first, then store the document hash (tracking all its terms) and write
the new postings. -/
def unifiedIndexDocument (cfg : SearchConfig) (keyPrefix id content : Str)
    (metadata : Option (List (Str × Str))) (st : RedisState) : RedisState :=
  let st0 := unifiedRemoveDocument keyPrefix id st
  let docKey := getKey keyPrefix (str "doc") id
  let grams := generateSearchTerms cfg content
  let allTerms := grams.1 ++ grams.2
  let st1 := { st0 with docs := alSet st0.docs docKey ⟨content, some allTerms, metadata⟩ }
  let st2 := saddCmd st1 (getKey keyPrefix (str "docs") (str "all")) id
  let st3 := grams.1.foldl (fun s g => saddCmd s (getKey keyPrefix (str "ngram") g) id) st2
  grams.2.foldl (fun s g => saddCmd s (getKey keyPrefix (str "edgegram") g) id) st3

/-- One posting hit in `UnifiedRedisAdapter.performSearch`: the entry is
created unconditionally (with empty placeholder content), then the
weight is added. -/
def redisBump (w : Rat) (scores : List (Str × (Rat × DocData))) (docId : Str) :
    List (Str × (Rat × DocData)) :=
  let scores1 :=
    if (alLookup scores docId).isSome then scores
    else scores ++ [(docId, (0, ⟨[], none⟩))]
  match alLookup scores1 docId with
  | some sd => alSet scores1 docId (sd.1 + w, sd.2)
  | none => scores1

/-- The n-gram pass of `performSearch`: a flat `+ngramWeight` per
posting hit. -/
def redisNgramPass (cfg : SearchConfig) (keyPrefix : Str) (st : RedisState)
    (grams : List Str) (scores : List (Str × (Rat × DocData))) :
    List (Str × (Rat × DocData)) :=
  grams.foldl
    (fun sc g => (smembers st (getKey keyPrefix (str "ngram") g)).foldl
      (redisBump cfg.ngramWeight) sc)
    scores

/-- The edge-gram pass of `performSearch`:
`+ (gramLength / maxEdgegram) × edgegramWeight` per posting hit. -/
def redisEdgegramPass (cfg : SearchConfig) (keyPrefix : Str) (st : RedisState)
    (grams : List Str) (scores : List (Str × (Rat × DocData))) :
    List (Str × (Rat × DocData)) :=
  grams.foldl
    (fun sc g =>
      (smembers st (getKey keyPrefix (str "edgegram") g)).foldl
        (redisBump (((g.length : Rat) / (cfg.maxEdgegram : Rat)) * cfg.edgegramWeight)) sc)
    scores

/-- The accumulation phase of `performSearch` over all query terms. -/
def redisAccumulateScores (cfg : SearchConfig) (keyPrefix : Str) (st : RedisState)
    (searchTerms : List Str) : List (Str × (Rat × DocData)) :=
  searchTerms.foldl
    (fun sc term =>
      let grams := generateSearchTerms cfg term
      redisEdgegramPass cfg keyPrefix st grams.2
        (redisNgramPass cfg keyPrefix st grams.1 sc))
    []

/-- `UnifiedRedisAdapter.performSearch`: accumulate posting scores,
fetch the candidate documents (dropping stale candidates and
empty-content records), layer the exact-match boost on top, then filter,
sort and paginate via the shared base logic. -/
def unifiedPerformSearch (cfg : SearchConfig) (keyPrefix : Str) (q : SearchQuery)
    (st : RedisState) : SearchResponse :=
  let norm := normalizeSearchQuery q
  if !norm.2 then createEmptyResponse q
  else
    let searchTerms := norm.1
    let scores := redisAccumulateScores cfg keyPrefix st searchTerms
    if scores.isEmpty then createEmptyResponse q
    else
      let finalScores := scores.foldl
        (fun acc e =>
          match alLookup st.docs (getKey keyPrefix (str "doc") e.1) with
          | some doc =>
            if !doc.content.isEmpty then
              acc ++ [(e.1,
                (calculateRelevanceScore cfg doc.content searchTerms 0 0 + e.2.1,
                 (⟨doc.content, doc.metadata⟩ : DocData)))]
            else acc
          | none => acc)
        []
      processSearchResults cfg q searchTerms finalScores

/-! ### Concrete LRU scenario fixtures (spec testable property, C5) -/

/-- Capacity-2 store after indexing `a`, `b`. -/
def lruBaseState : MemoryState :=
  memoryIndexDocument (str "b") (str "grape") none
    (memoryIndexDocument (str "a") (str "apple") none
      (emptyMemoryState DEFAULT_SEARCH_CONFIG 2))

/-- Scenario 1: index `c` with no intervening search — `a` is evicted. -/
def lruScenario1State : MemoryState :=
  memoryIndexDocument (str "c") (str "melon") none lruBaseState

/-- Scenario 2: search `a` (bumping its access counter), then index `c`
— `b` is evicted instead. -/
def lruScenario2State : MemoryState :=
  memoryIndexDocument (str "c") (str "melon") none
    ((memorySearch ⟨str "apple", none, none, none⟩ lruBaseState).2)

/-- A one-document store at capacity 1 (witness state for C5). -/
def lruWitnessState : MemoryState :=
  ⟨DEFAULT_SEARCH_CONFIG, [(str "a", ⟨str "x", none⟩)], [(str "a", 1)], [], [], 1, 1⟩

/-- The accumulated score a scoring map holds for a document id (`0`
when the id has no entry yet). -/
def scoreOf (scores : List (Str × (Rat × DocData))) (docId : Str) : Rat :=
  ((alLookup scores docId).map Prod.fst).getD 0

section RatEval
/- `Rat.add`, `Rat.mul`, `Rat.inv` and `Rat.sub` are `@[irreducible]` in
Batteries; the concrete score evaluations below need them to reduce. -/
attribute [local semireducible] Rat.add Rat.mul Rat.inv Rat.sub

/-! ## Lemmas: character classes and normalization -/


theorem space_char_cases {c : Char} (h : isSpaceChar c = true) :
    c = ' ' ∨ c = '\t' ∨ c = '\n' ∨ c = '\r' ∨ c = '\x0b' ∨ c = '\x0c' := by
  simp only [isSpaceChar, Bool.or_eq_true, beq_iff_eq] at h
  tauto

theorem not_word_of_space {c : Char} (h : isSpaceChar c = true) : isWordChar c = false := by
  rcases space_char_cases h with h | h | h | h | h | h <;> subst h <;> decide

theorem not_space_of_word {c : Char} (h : isWordChar c = true) : isSpaceChar c = false := by
  cases hs : isSpaceChar c with
  | false => rfl
  | true => rw [not_word_of_space hs] at h; exact absurd h (by simp)

theorem word_of_not_other_not_space {c : Char} (ho : isOtherChar c = false)
    (hs : isSpaceChar c = false) : isWordChar c = true := by
  by_contra hw
  simp only [Bool.not_eq_true] at hw
  simp [isOtherChar, hw, hs] at ho

theorem mem_trimRight {c : Char} : ∀ {s : Str}, c ∈ trimRight s → c ∈ s := by
  intro s
  induction s using trimRight.induct with
  | case1 => simp [trimRight]
  | case2 d rest h1 h2 ih =>
    simp only [trimRight, h1]
    simp [h2]
  | case3 d rest h1 h2 ih =>
    simp only [trimRight, h1]
    simp [h2]
    intro h
    simp [h]
  | case4 d rest h1 ih =>
    simp only [trimRight]
    cases h : trimRight rest with
    | nil => exact absurd h h1
    | cons x xs =>
      intro hm
      rcases List.mem_cons.mp hm with h2 | hm2
      · simp [h2]
      · exact List.mem_cons_of_mem _ (ih (h ▸ hm2))

theorem mem_trimStr {c : Char} {s : Str} (h : c ∈ trimStr s) : c ∈ s := by
  have h1 := mem_trimRight h
  exact (List.dropWhile_sublist isSpaceChar).mem h1

theorem collapseWS_onlyPlain : ∀ s : Str, onlyPlainSpaces (collapseRuns isSpaceChar ' ' s) := by
  refine collapseRuns.induct isSpaceChar ' '
    (fun s => onlyPlainSpaces (collapseRuns isSpaceChar ' ' s)) ?_ ?_ ?_ ?_ ?_
  · intro x hx
    simp [collapseRuns] at hx
  · intro c hp x hx _
    simp only [collapseRuns, if_pos hp, List.mem_singleton] at hx
    exact hx
  · intro c hp x hx hs
    simp only [collapseRuns, if_neg hp, List.mem_singleton] at hx
    subst hx
    exact absurd hs hp
  · intro c d rest hpd ih
    intro x hx hs
    simp only [collapseRuns, if_pos hpd] at hx
    exact ih x hx hs
  · intro c d rest hpd ih
    intro x hx hs
    simp only [collapseRuns, if_neg hpd] at hx
    rcases List.mem_cons.mp hx with h | h
    · subst h
      by_cases hc : isSpaceChar c = true
      · simp [hc]
      · rw [if_neg hc] at hs
        exact absurd hs hc
    · exact ih x h hs

theorem onlyPlain_trimStr {s : Str} (h : onlyPlainSpaces s) :
    onlyPlainSpaces (trimStr s) :=
  fun c hc hs => h c (mem_trimStr hc) hs

theorem runsAux_nil (cur : Str) :
    nonSpaceRunsAux cur [] = if cur.isEmpty then [] else [cur.reverse] := rfl

theorem runsAux_space {c : Char} (h : isSpaceChar c = true) (cur : Str) (rest : Str) :
    nonSpaceRunsAux cur (c :: rest) =
      if cur.isEmpty then nonSpaceRunsAux [] rest
      else cur.reverse :: nonSpaceRunsAux [] rest := by
  simp [nonSpaceRunsAux, h]

theorem runsAux_nonspace {c : Char} (h : isSpaceChar c = false) (cur : Str) (rest : Str) :
    nonSpaceRunsAux cur (c :: rest) = nonSpaceRunsAux (c :: cur) rest := by
  simp [nonSpaceRunsAux, h]

theorem space_of_blank : isSpaceChar ' ' = true := by decide

theorem splitAux_filter_eq_runs :
    ∀ (s : Str), onlyPlainSpaces s → ∀ (cur : Str),
      (splitAux ' ' cur s).filter (fun w => !w.isEmpty) = nonSpaceRunsAux cur s := by
  intro s
  induction s with
  | nil =>
    intro _ cur
    cases cur with
    | nil => simp [splitAux, runsAux_nil]
    | cons a l => simp [splitAux, runsAux_nil, List.filter_cons]
  | cons c rest ih =>
    intro hplain cur
    have hrest : onlyPlainSpaces rest := fun x hx => hplain x (List.mem_cons_of_mem _ hx)
    by_cases hc : c = ' '
    · subst hc
      rw [runsAux_space space_of_blank]
      simp only [splitAux, beq_self_eq_true, if_pos]
      cases cur with
      | nil => simpa [List.filter_cons] using ih hrest []
      | cons a l =>
        simp only [List.isEmpty_cons, Bool.false_eq_true, if_false]
        rw [List.filter_cons]
        simpa [List.filter_cons] using ih hrest []
    · have hcs : isSpaceChar c = false := by
        cases h : isSpaceChar c with
        | false => rfl
        | true => exact absurd (hplain c (List.mem_cons_self c rest) h) hc
      have hbeq : (c == ' ') = false := by simpa using hc
      rw [runsAux_nonspace hcs]
      simp only [splitAux, hbeq, Bool.false_eq_true, if_false]
      exact ih hrest (c :: cur)

theorem runs_collapseWS :
    ∀ (s : Str) (cur : Str),
      nonSpaceRunsAux cur (collapseRuns isSpaceChar ' ' s) = nonSpaceRunsAux cur s := by
  refine collapseRuns.induct isSpaceChar ' '
    (fun s => ∀ cur, nonSpaceRunsAux cur (collapseRuns isSpaceChar ' ' s) = nonSpaceRunsAux cur s)
    ?_ ?_ ?_ ?_ ?_
  · intro cur; rfl
  · intro c hp cur
    simp only [collapseRuns, if_pos hp]
    rw [runsAux_space space_of_blank, runsAux_space hp]
  · intro c hp cur
    simp only [collapseRuns, if_neg hp]
  · intro c d rest hpd ih cur
    have hc : isSpaceChar c = true := ((Bool.and_eq_true _ _).mp hpd).1
    have hd : isSpaceChar d = true := ((Bool.and_eq_true _ _).mp hpd).2
    simp only [collapseRuns, if_pos hpd, ih]
    rw [runsAux_space hc, runsAux_space hd]
    rw [runsAux_space hd]
    simp
  · intro c d rest hpd ih cur
    simp only [collapseRuns, if_neg hpd]
    by_cases hc : isSpaceChar c = true
    · rw [if_pos hc, runsAux_space space_of_blank, runsAux_space hc, ih]
    · have hc2 : isSpaceChar c = false := by simpa using hc
      rw [if_neg hc, runsAux_nonspace hc2, runsAux_nonspace hc2, ih]

theorem runs_trimRight :
    ∀ (s : Str) (cur : Str),
      nonSpaceRunsAux cur (trimRight s) = nonSpaceRunsAux cur s := by
  intro s
  induction s using trimRight.induct with
  | case1 => intro cur; rfl
  | case2 c rest h1 h2 ih =>
    intro cur
    simp only [trimRight, h1, if_pos h2]
    rw [runsAux_space h2]
    have hre : nonSpaceRunsAux [] rest = [] := by
      have h3 := ih []
      rw [h1] at h3
      simpa [runsAux_nil] using h3.symm
    rw [hre, runsAux_nil]
  | case3 c rest h1 h2 ih =>
    intro cur
    have hc2 : isSpaceChar c = false := by simpa using h2
    simp only [trimRight, h1, if_neg h2]
    rw [runsAux_nonspace hc2, runsAux_nonspace hc2, runsAux_nil]
    have h3 := ih (c :: cur)
    rw [h1, runsAux_nil] at h3
    exact h3
  | case4 c rest h1 ih =>
    intro cur
    have hne : trimRight (c :: rest) = c :: trimRight rest := by
      rw [trimRight]
      cases h : trimRight rest with
      | nil => exact absurd h h1
      | cons x xs => rfl
    rw [hne]
    by_cases hc : isSpaceChar c = true
    · rw [runsAux_space hc, runsAux_space hc, ih]
    · have hc2 : isSpaceChar c = false := by simpa using hc
      rw [runsAux_nonspace hc2, runsAux_nonspace hc2, ih]

theorem runs_dropWhile :
    ∀ (s : Str), nonSpaceRunsAux [] (s.dropWhile isSpaceChar) = nonSpaceRunsAux [] s := by
  intro s
  induction s with
  | nil => rfl
  | cons c rest ih =>
    by_cases hc : isSpaceChar c = true
    · rw [List.dropWhile_cons_of_pos hc, ih, runsAux_space hc]
      simp
    · rw [List.dropWhile_cons_of_neg (by simpa using hc)]

theorem runs_trimStr (s : Str) :
    nonSpaceRunsAux [] (trimStr s) = nonSpaceRunsAux [] s := by
  unfold trimStr
  rw [runs_trimRight, runs_dropWhile]

theorem wordAux_nil (cur : Str) :
    wordRunsAux cur [] = if cur.isEmpty then [] else [cur.reverse] := rfl

theorem wordAux_word {c : Char} (h : isWordChar c = true) (cur : Str) (rest : Str) :
    wordRunsAux cur (c :: rest) = wordRunsAux (c :: cur) rest := by
  simp [wordRunsAux, h]

theorem wordAux_nonword {c : Char} (h : isWordChar c = false) (cur : Str) (rest : Str) :
    wordRunsAux cur (c :: rest) =
      if cur.isEmpty then wordRunsAux [] rest
      else cur.reverse :: wordRunsAux [] rest := by
  simp [wordRunsAux, h]

theorem runs_replaceNonWord :
    ∀ (s : Str) (cur : Str),
      nonSpaceRunsAux cur (replaceNonWord s) = wordRunsAux cur s := by
  intro s
  induction s with
  | nil => intro cur; rfl
  | cons c rest ih =>
    intro cur
    have hmap : replaceNonWord (c :: rest) =
        (if isOtherChar c then ' ' else c) :: replaceNonWord rest := rfl
    rw [hmap]
    by_cases hw : isWordChar c = true
    · have ho : isOtherChar c = false := by simp [isOtherChar, hw]
      have hs : isSpaceChar c = false := not_space_of_word hw
      rw [if_neg (by simp [ho]), runsAux_nonspace hs, wordAux_word hw, ih]
    · have hw2 : isWordChar c = false := by simpa using hw
      rw [wordAux_nonword hw2]
      by_cases hs : isSpaceChar c = true
      · have ho : isOtherChar c = false := by simp [isOtherChar, hs]
        rw [if_neg (by simp [ho]), runsAux_space hs]
        cases cur with
        | nil => simp [ih]
        | cons a l => simp [ih]
      · have ho : isOtherChar c = true := by
          simp [isOtherChar, hw2]
          simpa using hs
        rw [if_pos (by simp [ho]), runsAux_space space_of_blank]
        cases cur with
        | nil => simp [ih]
        | cons a l => simp [ih]

theorem runs_collapseOther :
    ∀ (s : Str) (cur : Str),
      nonSpaceRunsAux cur (collapseRuns isOtherChar ' ' s) = wordRunsAux cur s := by
  refine collapseRuns.induct isOtherChar ' '
    (fun s => ∀ cur, nonSpaceRunsAux cur (collapseRuns isOtherChar ' ' s) = wordRunsAux cur s)
    ?_ ?_ ?_ ?_ ?_
  · intro cur; rfl
  · intro c hp cur
    have hw : isWordChar c = false := by
      simp only [isOtherChar, Bool.and_eq_true, Bool.not_eq_true'] at hp
      exact hp.1
    simp only [collapseRuns, if_pos hp]
    rw [runsAux_space space_of_blank, wordAux_nonword hw]
    cases cur with
    | nil => rfl
    | cons a l => rfl
  · intro c hp cur
    have hp2 : isOtherChar c = false := by simpa using hp
    simp only [collapseRuns, if_neg hp]
    by_cases hs : isSpaceChar c = true
    · rw [runsAux_space hs, wordAux_nonword (not_word_of_space hs)]
      rfl
    · have hs2 : isSpaceChar c = false := by simpa using hs
      have hw : isWordChar c = true := word_of_not_other_not_space hp2 hs2
      rw [runsAux_nonspace hs2, wordAux_word hw]
      rfl
  · intro c d rest hpd ih cur
    have hc : isOtherChar c = true := ((Bool.and_eq_true _ _).mp hpd).1
    have hd : isOtherChar d = true := ((Bool.and_eq_true _ _).mp hpd).2
    have hwc : isWordChar c = false := by
      simp only [isOtherChar, Bool.and_eq_true, Bool.not_eq_true'] at hc
      exact hc.1
    have hwd : isWordChar d = false := by
      simp only [isOtherChar, Bool.and_eq_true, Bool.not_eq_true'] at hd
      exact hd.1
    simp only [collapseRuns, if_pos hpd, ih]
    rw [wordAux_nonword hwc, wordAux_nonword hwd]
    rw [wordAux_nonword hwd]
    simp
  · intro c d rest hpd ih cur
    simp only [collapseRuns, if_neg hpd]
    by_cases hc : isOtherChar c = true
    · have hwc : isWordChar c = false := by
        simp only [isOtherChar, Bool.and_eq_true, Bool.not_eq_true'] at hc
        exact hc.1
      rw [if_pos hc, runsAux_space space_of_blank, wordAux_nonword hwc, ih]
    · have hc2 : isOtherChar c = false := by simpa using hc
      rw [if_neg hc]
      by_cases hs : isSpaceChar c = true
      · rw [runsAux_space hs, wordAux_nonword (not_word_of_space hs), ih]
      · have hs2 : isSpaceChar c = false := by simpa using hs
        have hw : isWordChar c = true := word_of_not_other_not_space hc2 hs2
        rw [runsAux_nonspace hs2, wordAux_word hw, ih]

/-- The nonempty pieces of the source normalization's space-split are the
maximal word-character runs of the lowercased text. -/
theorem srcWords_eq_wordRuns (text : Str) :
    (splitOnChar ' ' (normalizeText text)).filter (fun w => !w.isEmpty)
      = wordRuns (text.map toLowerChar) := by
  unfold normalizeText splitOnChar wordRuns collapseWS
  rw [splitAux_filter_eq_runs _
    (onlyPlain_trimStr (collapseWS_onlyPlain _)) []]
  rw [runs_trimStr, runs_collapseWS, runs_replaceNonWord]

/-- The nonempty pieces of the spec normalization's space-split are the
same maximal word-character runs. -/
theorem specWords_eq_wordRuns (text : Str) :
    (splitOnChar ' ' (normalizeTextSpec text)).filter (fun w => !w.isEmpty)
      = wordRuns (text.map toLowerChar) := by
  unfold normalizeTextSpec splitOnChar wordRuns collapseWS
  rw [splitAux_filter_eq_runs _ (collapseWS_onlyPlain _) []]
  rw [runs_collapseWS, runs_trimStr, runs_collapseOther]

/-- A flatMap whose function sends the empty word to `[]` ignores empty
pieces. -/
theorem flatMap_filter_empty (f : Str → List Str) (hf : f [] = []) :
    ∀ l : List Str, l.flatMap f = (l.filter (fun w => !w.isEmpty)).flatMap f := by
  intro l
  induction l with
  | nil => rfl
  | cons x xs ih =>
    rw [List.flatMap_cons, List.filter_cons]
    cases x with
    | nil => simpa [hf] using ih
    | cons a l2 => simp [List.flatMap_cons, ih]

/-- C7 core: the source `buildNGrams` agrees with the spec-worded
`buildNGramsSpec` for every text and every `n ≥ 1`. -/
theorem buildNGrams_eq_spec (text : Str) (n : Nat) (hn : 1 ≤ n) :
    buildNGrams text n = buildNGramsSpec text n := by
  have hf : slidingWindows n [] = [] := by
    simp only [slidingWindows, List.length_nil]
    rw [if_neg (by omega)]
  unfold buildNGrams buildNGramsSpec
  rw [flatMap_filter_empty _ hf (splitOnChar ' ' (normalizeText text)), srcWords_eq_wordRuns,
    flatMap_filter_empty _ hf (splitOnChar ' ' (normalizeTextSpec text)), specWords_eq_wordRuns]

/-! ## Deduplication lemmas (for the `minGram = 0` corner of C8) -/

theorem seenAfter_cons (seen : List Str) (x : Str) (l : List Str) :
    seenAfter seen (x :: l) = seenAfter (if x ∈ seen then seen else x :: seen) l := rfl

theorem mem_seenAfter {x : Str} :
    ∀ (l : List Str) (seen : List Str), x ∈ seen → x ∈ seenAfter seen l := by
  intro l
  induction l with
  | nil => intro seen h; exact h
  | cons y ys ih =>
    intro seen h
    rw [seenAfter_cons]
    by_cases hy : y ∈ seen
    · rw [if_pos hy]; exact ih seen h
    · rw [if_neg hy]; exact ih _ (List.mem_cons_of_mem _ h)

theorem dedupAux_append :
    ∀ (l m : List Str) (seen : List Str),
      dedupAux seen (l ++ m) = dedupAux seen l ++ dedupAux (seenAfter seen l) m := by
  intro l
  induction l with
  | nil => intro m seen; rfl
  | cons x xs ih =>
    intro m seen
    rw [List.cons_append]
    by_cases hx : x ∈ seen
    · simp only [dedupAux, if_pos hx, seenAfter_cons]
      rw [ih]
    · simp only [dedupAux, if_neg hx, seenAfter_cons]
      rw [ih, List.cons_append]

theorem dedupAux_congr :
    ∀ (l : List Str) (s1 s2 : List Str),
      (∀ x ∈ l, (x ∈ s1 ↔ x ∈ s2)) → dedupAux s1 l = dedupAux s2 l := by
  intro l
  induction l with
  | nil => intro s1 s2 _; rfl
  | cons x xs ih =>
    intro s1 s2 h
    have hx := h x (List.mem_cons_self x xs)
    by_cases h1 : x ∈ s1
    · simp only [dedupAux, if_pos h1, if_pos (hx.mp h1)]
      exact ih s1 s2 (fun y hy => h y (List.mem_cons_of_mem _ hy))
    · have h2 : x ∉ s2 := fun hc => h1 (hx.mpr hc)
      simp only [dedupAux, if_neg h1, if_neg h2]
      rw [ih (x :: s1) (x :: s2)]
      intro y hy
      simp only [List.mem_cons]
      rw [h y (List.mem_cons_of_mem _ hy)]

theorem dedupAux_flatMap_cons_nil (g : Str → List Str) :
    ∀ (ws : List Str) (seen : List Str), [] ∈ seen →
      dedupAux seen (ws.flatMap (fun w => [] :: g w)) = dedupAux seen (ws.flatMap g) := by
  intro ws
  induction ws with
  | nil => intro seen _; rfl
  | cons w ws1 ih =>
    intro seen hseen
    rw [List.flatMap_cons, List.flatMap_cons, List.cons_append]
    simp only [dedupAux, if_pos hseen]
    rw [dedupAux_append, dedupAux_append, ih _ (mem_seenAfter _ _ hseen)]

theorem dedup_flatMap_cons_nil (g : Str → List Str)
    (hg : ∀ w x, x ∈ g w → ¬ x.isEmpty = true) (w0 : Str) (ws1 : List Str) :
    dedupKeepFirst ((w0 :: ws1).flatMap (fun w => [] :: g w))
      = [] :: dedupKeepFirst ((w0 :: ws1).flatMap g) := by
  unfold dedupKeepFirst
  rw [List.flatMap_cons, List.cons_append]
  have hnil : ([] : Str) ∉ ([] : List Str) := List.not_mem_nil _
  simp only [dedupAux, if_neg hnil]
  rw [dedupAux_append, dedupAux_flatMap_cons_nil g _ _ (mem_seenAfter _ _ (List.mem_singleton.mpr rfl)),
    ← dedupAux_append, ← List.flatMap_cons]
  congr 1
  apply dedupAux_congr
  intro x hx
  have hxne : ¬ x.isEmpty = true := by
    rcases List.mem_flatMap.mp hx with ⟨w, _, hw⟩
    exact hg w x hw
  have hxne2 : x ≠ [] := by simpa [List.isEmpty_eq_true] using hxne
  simp [hxne2]

theorem rangeFromTo_zero (k : Nat) : rangeFromTo 0 k = 0 :: rangeFromTo 1 k := by
  unfold rangeFromTo
  rw [Nat.sub_zero, Nat.add_sub_cancel, List.range_succ_eq_map, List.map_cons, List.map_map]
  refine congrArg₂ (· :: ·) (by omega) ?_
  refine List.map_congr_left ?_
  intro a _
  simp only [Function.comp_apply]
  omega

theorem edgePrefixes_zero (maxG : Nat) (w : Str) :
    edgePrefixes 0 maxG w = [] :: edgePrefixes 1 maxG w := by
  unfold edgePrefixes
  rw [rangeFromTo_zero, List.map_cons, List.take_zero]

theorem edgePrefixes_one_ne_nil {maxG : Nat} {w : Str} :
    ∀ x ∈ edgePrefixes 1 maxG w, ¬ x.isEmpty = true := by
  intro x hx
  unfold edgePrefixes rangeFromTo at hx
  rcases List.mem_map.mp hx with ⟨len, hlen, rfl⟩
  rcases List.mem_map.mp hlen with ⟨i, hi, rfl⟩
  have hiw : i < min maxG w.length + 1 - 1 := List.mem_range.mp hi
  have hmin : min maxG w.length ≤ w.length := Nat.min_le_right _ _
  have h1 : 1 + i ≤ w.length := by omega
  have : (w.take (1 + i)).length = 1 + i := by
    rw [List.length_take]
    omega
  simp only [List.isEmpty_eq_true, Bool.not_eq_true]
  intro hc
  rw [hc] at this
  simp only [List.length_nil] at this
  omega

theorem edgePrefixes_one_nil (maxG : Nat) : edgePrefixes 1 maxG [] = [] := by
  simp [edgePrefixes, rangeFromTo]

theorem edgePrefixes_nil_of_pos {minG : Nat} (h : 1 ≤ minG) (maxG : Nat) :
    edgePrefixes minG maxG [] = [] := by
  simp only [edgePrefixes, rangeFromTo, List.length_nil, Nat.min_zero]
  have : 0 + 1 - minG = 0 := by omega
  rw [this]
  rfl

theorem splitAux_ne_nil (sep : Char) : ∀ (s : Str) (cur : Str), splitAux sep cur s ≠ [] := by
  intro s
  induction s with
  | nil => intro cur; simp [splitAux]
  | cons c rest ih =>
    intro cur
    rw [splitAux]
    by_cases hc : (c == sep) = true
    · rw [if_pos hc]; simp
    · rw [if_neg hc]; exact ih (c :: cur)

theorem dedup_flatMap_edgeZero (maxG : Nat) (ws : List Str) (hws : ws ≠ []) :
    dedupKeepFirst (ws.flatMap (edgePrefixes 0 maxG))
      = [] :: dedupKeepFirst (ws.flatMap (edgePrefixes 1 maxG)) := by
  obtain ⟨w0, ws1, rfl⟩ : ∃ w0 ws1, ws = w0 :: ws1 := by
    cases ws with
    | nil => exact absurd rfl hws
    | cons a l => exact ⟨a, l, rfl⟩
  have hfun : edgePrefixes 0 maxG = fun w => [] :: edgePrefixes 1 maxG w :=
    funext (edgePrefixes_zero maxG)
  rw [hfun]
  exact dedup_flatMap_cons_nil _ (fun w x hx => edgePrefixes_one_ne_nil x hx) w0 ws1

/-- C8 core: the source `buildEdgeGrams` agrees with the spec-worded
`buildEdgeGramsSpec` for every text and every `minGram`, `maxGram`. -/
theorem buildEdgeGrams_eq_spec (text : Str) (minG maxG : Nat) :
    buildEdgeGrams text minG maxG = buildEdgeGramsSpec text minG maxG := by
  by_cases hgt : minG > maxG
  · simp [buildEdgeGrams, buildEdgeGramsSpec, hgt]
  · unfold buildEdgeGrams buildEdgeGramsSpec
    rw [if_neg hgt, if_neg hgt]
    rcases Nat.eq_zero_or_pos minG with h0 | hpos
    · subst h0
      rw [dedup_flatMap_edgeZero maxG (splitOnChar ' ' (normalizeText text))
          (splitAux_ne_nil ' ' (normalizeText text) []),
        dedup_flatMap_edgeZero maxG (splitOnChar ' ' (normalizeTextSpec text))
          (splitAux_ne_nil ' ' (normalizeTextSpec text) [])]
      rw [flatMap_filter_empty _ (edgePrefixes_one_nil maxG) (splitOnChar ' ' (normalizeText text)),
        srcWords_eq_wordRuns,
        flatMap_filter_empty _ (edgePrefixes_one_nil maxG) (splitOnChar ' ' (normalizeTextSpec text)),
        specWords_eq_wordRuns]
    · rw [flatMap_filter_empty _ (edgePrefixes_nil_of_pos hpos maxG) (splitOnChar ' ' (normalizeText text)),
        srcWords_eq_wordRuns,
        flatMap_filter_empty _ (edgePrefixes_nil_of_pos hpos maxG) (splitOnChar ' ' (normalizeTextSpec text)),
        specWords_eq_wordRuns]

/-- **C7**: `buildNGrams(text, n)` equals, for every text and every
`n ≥ 1`, the deduplicated sequence obtained by the spec's normalization
(lowercase; replace runs of non-word/non-space characters by one space;
trim; collapse internal whitespace), splitting on spaces, and emitting
for each word of length ≥ n every contiguous substring of length n by a
sliding window of step 1; in particular `buildNGrams "cat" 3 = ["cat"]`,
`buildNGrams "cats" 3 = ["cat", "ats"]` and `buildNGrams "ab" 3 = []`. -/
theorem claim_C7_buildNGrams_matches_spec :
    (∀ (text : Str) (n : Nat), 1 ≤ n → buildNGrams text n = buildNGramsSpec text n) ∧
    buildNGrams (str "cat") 3 = [str "cat"] ∧
    buildNGrams (str "cats") 3 = [str "cat", str "ats"] ∧
    buildNGrams (str "ab") 3 = [] :=
  ⟨buildNGrams_eq_spec, by decide, by decide, by decide⟩

/-- Witness for C7: the universal part applied at a concrete text and
`n = 3`, with the hypothesis `1 ≤ 3` discharged concretely. -/
theorem claim_C7_witness :
    buildNGrams (str "Hello, World!") 3 = buildNGramsSpec (str "Hello, World!") 3 :=
  claim_C7_buildNGrams_matches_spec.1 (str "Hello, World!") 3 (by decide)

/-- **C8**: `buildEdgeGrams(text, minGram, maxGram)` returns the empty
sequence when `minGram > maxGram` (a valid degenerate configuration) and
otherwise equals the spec-worded deduplicated prefix sequence; in
particular `buildEdgeGrams "tutorial" 2 4 = ["tu", "tut", "tuto"]`. -/
theorem claim_C8_buildEdgeGrams_matches_spec :
    (∀ (text : Str) (minGram maxGram : Nat),
        buildEdgeGrams text minGram maxGram = buildEdgeGramsSpec text minGram maxGram) ∧
    (∀ (text : Str), buildEdgeGrams text 5 2 = []) ∧
    buildEdgeGrams (str "tutorial") 2 4 = [str "tu", str "tut", str "tuto"] :=
  ⟨buildEdgeGrams_eq_spec,
   fun text => by simp [buildEdgeGrams],
   by decide⟩

/-! ## Lemmas: highlight generation (C9, C10) -/

theorem isPrefixOf_nil_eq_false {tl : Str} (h : tl ≠ []) :
    tl.isPrefixOf ([] : Str) = false := by
  cases tl with
  | nil => exact absurd rfl h
  | cons a l => rfl

theorem occAux_eq_findFrom {tl : Str} (htl : tl ≠ []) (hay : Str) :
    ∀ (rest : Str) (pos : Nat), rest = hay.drop pos →
      occAux tl rest pos =
        match findFrom tl rest pos with
        | none => []
        | some idx => idx :: occAux tl (hay.drop (idx + 1)) (idx + 1) := by
  intro rest
  induction rest with
  | nil =>
    intro pos _
    simp [occAux, findFrom, isPrefixOf_nil_eq_false htl]
  | cons c r ih =>
    intro pos hpos
    have hr : r = hay.drop (pos + 1) := by
      have h2 := congrArg List.tail hpos
      simpa [List.tail_drop] using h2
    by_cases hp : tl.isPrefixOf (c :: r) = true
    · simp only [occAux, findFrom, hp, if_pos]
      rw [← hr]
      simp
    · simp only [occAux, findFrom, hp, Bool.false_eq_true, if_neg, List.nil_append]
      exact ih (pos + 1) hr

theorem collectTerm_eq_take (content term : Str) (ctx : Nat) (hterm : term ≠ []) :
    ∀ (budget : Nat) (pos : Nat),
      collectTerm content term ctx budget pos
        = ((occAux (term.map toLowerChar) ((content.map toLowerChar).drop pos) pos).map
            (snippetAt content term ctx)).take budget := by
  have htl : term.map toLowerChar ≠ [] := by simpa using hterm
  intro budget
  induction budget with
  | zero => intro pos; simp [collectTerm]
  | succ b ih =>
    intro pos
    rw [occAux_eq_findFrom htl (content.map toLowerChar) _ pos rfl]
    simp only [collectTerm]
    cases h : findFrom (term.map toLowerChar) ((content.map toLowerChar).drop pos) pos with
    | none => simp
    | some idx =>
      simp only [List.map_cons, List.take_succ_cons]
      rw [ih (idx + 1)]

theorem collectTerm_length_le (content term : Str) (ctx : Nat) :
    ∀ (budget : Nat) (pos : Nat), (collectTerm content term ctx budget pos).length ≤ budget := by
  intro budget
  induction budget with
  | zero => intro pos; simp [collectTerm]
  | succ b ih =>
    intro pos
    simp only [collectTerm]
    cases findFrom (term.map toLowerChar) ((content.map toLowerChar).drop pos) pos with
    | none => simp
    | some idx =>
      simp only [List.length_cons]
      exact Nat.succ_le_succ (ih (idx + 1))

theorem ghAux_length_le (content : Str) (maxH ctx : Nat) :
    ∀ (ts : List Str) (acc : List Str), acc.length ≤ maxH →
      (generateHighlightsAux content maxH ctx acc ts).length ≤ maxH := by
  intro ts
  induction ts with
  | nil => intro acc h; simpa [generateHighlightsAux] using h
  | cons t rest ih =>
    intro acc h
    simp only [generateHighlightsAux]
    apply ih
    rw [List.length_append]
    have h2 := collectTerm_length_le content t ctx (maxH - acc.length) 0
    omega

theorem ghAux_take (content : Str) (maxH ctx : Nat) :
    ∀ (ts : List Str) (acc : List Str), (∀ t ∈ ts, t ≠ []) → acc.length ≤ maxH →
      generateHighlightsAux content maxH ctx acc ts
        = acc ++ (ts.flatMap (fun t => termSnippetsAll content t ctx)).take (maxH - acc.length) := by
  intro ts
  induction ts with
  | nil =>
    intro acc _ _
    simp [generateHighlightsAux]
  | cons t rest ih =>
    intro acc hts hacc
    have ht : t ≠ [] := hts t (List.mem_cons_self t rest)
    have hcol : collectTerm content t ctx (maxH - acc.length) 0
        = (termSnippetsAll content t ctx).take (maxH - acc.length) := by
      rw [collectTerm_eq_take content t ctx ht (maxH - acc.length) 0]
      simp [termSnippetsAll, termOccurrences]
    simp only [generateHighlightsAux, hcol]
    set S := termSnippetsAll content t ctx with hS
    set k := maxH - acc.length with hk
    have hlen : (acc ++ S.take k).length = acc.length + min k S.length := by
      simp [List.length_append, List.length_take]
    rw [ih (acc ++ S.take k) (fun x hx => hts x (List.mem_cons_of_mem _ hx))
      (by rw [hlen]; omega)]
    rw [List.flatMap_cons, List.take_append_eq_append_take]
    rw [List.append_assoc, hlen]
    have : maxH - (acc.length + min k S.length) = k - S.length := by omega
    rw [this]

/-- **C9**: `generateHighlights` returns at most `maxHighlights` snippets
in total, and (for the nonempty terms produced by query normalization) it
returns exactly the first `maxHighlights` elements of the concatenation,
term by term, of each term's full snippet list — so the bound is
aggregate across all terms combined: iteration over one term's matches
stops as soon as the overall count reaches the bound, and a multi-term
query can exhaust the whole budget on its first term, leaving zero
snippets for later terms.  Each snippet (see `snippetAt`) spans
`contextLength` characters on each side of the match, carries an
ellipsis on any side that does not reach the content boundary, and wraps
every case-insensitive occurrence of the term inside the window in the
highlight marker. -/
theorem claim_C9_highlight_budget_is_aggregate :
    (∀ (content : Str) (terms : List Str) (maxH ctx : Nat),
        (generateHighlights content terms maxH ctx).length ≤ maxH) ∧
    (∀ (content : Str) (terms : List Str) (maxH ctx : Nat), (∀ t ∈ terms, t ≠ []) →
        generateHighlights content terms maxH ctx
          = ((terms.flatMap (fun t => termSnippetsAll content t ctx)).take maxH)) := by
  constructor
  · intro content terms maxH ctx
    exact ghAux_length_le content maxH ctx terms [] (by simp)
  · intro content terms maxH ctx hts
    unfold generateHighlights
    rw [ghAux_take content maxH ctx terms [] hts (by simp)]
    simp

/-- Witness for C9 at a concrete input: with `content = "aaaa"` and
terms `["aa", "zz"]`, the three-snippet budget is exhausted entirely by
the first term. -/
theorem claim_C9_witness :
    (generateHighlights (str "aaaa") [str "aa", str "zz"] 3 30).length ≤ 3 ∧
    generateHighlights (str "aaaa") [str "aa", str "zz"] 3 30
      = (([str "aa", str "zz"].flatMap
          (fun t => termSnippetsAll (str "aaaa") t 30)).take 3) :=
  ⟨claim_C9_highlight_budget_is_aggregate.1 (str "aaaa") [str "aa", str "zz"] 3 30,
   claim_C9_highlight_budget_is_aggregate.2 (str "aaaa") [str "aa", str "zz"] 3 30
     (by decide)⟩

/-- **C10** is false of the code: `generateHighlights` builds
`new RegExp(term, "gi")` from the raw term, and the ECMAScript `RegExp`
constructor throws a `SyntaxError` on a syntactically invalid pattern.
The term `"("` survives query normalization (lowercasing and whitespace
splitting preserve punctuation), and on a content containing `"("` the
highlight loop is entered and the constructor throws.  The modelled
evaluation: the fallible `generateHighlightsJS` errors on
`content = "foo (bar"`, `searchTerms = ["("]`, while a metacharacter-free
term behaves like the total literal-matching model. -/
theorem claim_C10_regexp_throws :
    generateHighlightsJS (str "foo (bar") [str "("] 3 30 = .error () ∧
    generateHighlightsJS (str "foo bar") [str "bar"] 3 30
      = .ok (generateHighlights (str "foo bar") [str "bar"] 3 30) := by
  constructor
  · rfl
  · rfl

/-! ## Lemmas: empty queries (C6) and pagination (C4) -/

theorem toLowerChar_space {c : Char} (h : isSpaceChar c = true) : toLowerChar c = c := by
  rcases space_char_cases h with h | h | h | h | h | h <;> subst h <;> decide

theorem runs_nil_of_spaces :
    ∀ (s : Str), (∀ c ∈ s, isSpaceChar c = true) → nonSpaceRunsAux [] s = [] := by
  intro s
  induction s with
  | nil => intro _; rfl
  | cons c rest ih =>
    intro h
    rw [runsAux_space (h c (List.mem_cons_self c rest))]
    simp only [List.isEmpty_nil, if_pos]
    exact ih (fun x hx => h x (List.mem_cons_of_mem _ hx))

theorem searchTerms_nil_of_spaces (q : Str) (h : ∀ c ∈ q, isSpaceChar c = true) :
    (splitWS (q.map toLowerChar)).filter (fun t => decide (0 < t.length)) = [] := by
  have hfc : (splitWS (q.map toLowerChar)).filter (fun t => decide (0 < t.length))
      = (splitWS (q.map toLowerChar)).filter (fun t => !t.isEmpty) := by
    apply List.filter_congr
    intro t _
    cases t with
    | nil => simp
    | cons a l => simp
  rw [hfc]
  unfold splitWS splitOnChar collapseWS
  rw [splitAux_filter_eq_runs _ (collapseWS_onlyPlain _) [], runs_collapseWS]
  apply runs_nil_of_spaces
  intro c hc
  rcases List.mem_map.mp hc with ⟨c0, hc0, rfl⟩
  have hs := h c0 hc0
  rw [toLowerChar_space hs]
  exact hs

theorem normalizeSearchQuery_of_spaces (q : SearchQuery)
    (h : ∀ c ∈ q.query, isSpaceChar c = true) :
    normalizeSearchQuery q = ([], false) := by
  simp only [normalizeSearchQuery]
  rw [searchTerms_nil_of_spaces q.query h]
  rfl

/-- **C6**: a query that is empty or whitespace-only (every character
whitespace, so normalization yields no search terms) returns the empty
response (`results = []`, `total = 0`, `hasMore = false`) without
changing the adapter state, and the search performs no lookup against
the posting indexes (`memorySearchLookups` is empty). -/
theorem claim_C6_empty_query_contract (st : MemoryState) (q : SearchQuery)
    (h : ∀ c ∈ q.query, isSpaceChar c = true) :
    memorySearch q st = (createEmptyResponse q, st) ∧
    (memorySearch q st).1.results = [] ∧
    (memorySearch q st).1.total = 0 ∧
    (memorySearch q st).1.hasMore = false ∧
    memorySearchLookups st q = [] := by
  have hn := normalizeSearchQuery_of_spaces q h
  have h1 : memorySearch q st = (createEmptyResponse q, st) := by
    simp [memorySearch, hn]
  refine ⟨h1, ?_, ?_, ?_, ?_⟩
  · rw [h1]; rfl
  · rw [h1]; rfl
  · rw [h1]; rfl
  · simp [memorySearchLookups, hn]

/-- Witness for C6: the three-space query on a nonempty index. -/
theorem claim_C6_witness :
    (memorySearch ⟨str "   ", none, none, none⟩
        (memoryIndexDocument (str "a") (str "apple") none
          (emptyMemoryState DEFAULT_SEARCH_CONFIG 10000))).1.results = [] ∧
    memorySearchLookups
        (memoryIndexDocument (str "a") (str "apple") none
          (emptyMemoryState DEFAULT_SEARCH_CONFIG 10000))
        ⟨str "   ", none, none, none⟩ = [] := by
  refine ⟨(claim_C6_empty_query_contract _ _ ?_).2.1, (claim_C6_empty_query_contract _ _ ?_).2.2.2.2⟩ <;> decide

theorem length_insertByScoreDesc {α : Type} (score : α → Rat) (r : α) :
    ∀ l : List α, (insertByScoreDesc score r l).length = l.length + 1 := by
  intro l
  induction l with
  | nil => rfl
  | cons x xs ih =>
    simp only [insertByScoreDesc]
    by_cases hc : score r < score x
    · rw [if_pos hc]
      simp [ih]
    · rw [if_neg hc]
      simp

theorem length_sortByScoreDesc {α : Type} (score : α → Rat) :
    ∀ l : List α, (sortByScoreDesc score l).length = l.length := by
  intro l
  induction l with
  | nil => rfl
  | cons x xs ih =>
    simp only [sortByScoreDesc, List.foldr_cons] at ih ⊢
    rw [length_insertByScoreDesc, ih, List.length_cons]

/-- **C4**: for a search in which `N` candidates survive the `minScore`
filtering (stale candidates having been dropped by the caller), with
limit `L > 0` and offset `O`: the results are the score-descending
sorted candidate list sliced at `[O, O + L)` — hence exactly
`min L (N - O)` results (`N - O` is the truncated subtraction, i.e.
`max 0 (N - O)`); `total` is `N`, the count before pagination; and
`hasMore` holds exactly when `O + L < N`. -/
theorem claim_C4_pagination_law (cfg : SearchConfig) (q : SearchQuery) (terms : List Str)
    (scores : List (Str × (Rat × DocData))) (L O : Nat)
    (hL : queryLimit q = L) (hO : queryOffset q = O) (_hLpos : 0 < L) :
    (processSearchResults cfg q terms scores).results
      = ((sortByScoreDesc SearchResult.score (filteredCandidates cfg terms scores)).drop O).take L ∧
    (processSearchResults cfg q terms scores).total
      = (filteredCandidates cfg terms scores).length ∧
    (processSearchResults cfg q terms scores).results.length
      = min L ((filteredCandidates cfg terms scores).length - O) ∧
    ((processSearchResults cfg q terms scores).hasMore = true
      ↔ O + L < (filteredCandidates cfg terms scores).length) := by
  refine ⟨?_, ?_, ?_, ?_⟩
  · simp [processSearchResults, hL, hO]
  · rfl
  · simp only [processSearchResults, hL, hO]
    rw [List.length_take, List.length_drop, length_sortByScoreDesc]
  · simp only [processSearchResults, hL, hO]
    exact decide_eq_true_iff

/-- Witness for C4 at a concrete input: three candidates, limit `2`,
offset `1`. -/
theorem claim_C4_witness :
    (processSearchResults DEFAULT_SEARCH_CONFIG ⟨str "x", some 2, some 1, none⟩ [str "x"]
        [(str "a", (1, ⟨str "aa", none⟩)), (str "b", (2, ⟨str "bb", none⟩)),
         (str "c", (3, ⟨str "cc", none⟩))]).results.length
      = min 2 ((filteredCandidates DEFAULT_SEARCH_CONFIG [str "x"]
        [(str "a", (1, ⟨str "aa", none⟩)), (str "b", (2, ⟨str "bb", none⟩)),
         (str "c", (3, ⟨str "cc", none⟩))]).length - 1) ∧
    ((processSearchResults DEFAULT_SEARCH_CONFIG ⟨str "x", some 2, some 1, none⟩ [str "x"]
        [(str "a", (1, ⟨str "aa", none⟩)), (str "b", (2, ⟨str "bb", none⟩)),
         (str "c", (3, ⟨str "cc", none⟩))]).hasMore = true
      ↔ 1 + 2 < (filteredCandidates DEFAULT_SEARCH_CONFIG [str "x"]
        [(str "a", (1, ⟨str "aa", none⟩)), (str "b", (2, ⟨str "bb", none⟩)),
         (str "c", (3, ⟨str "cc", none⟩))]).length) :=
  ⟨(claim_C4_pagination_law DEFAULT_SEARCH_CONFIG ⟨str "x", some 2, some 1, none⟩ [str "x"]
      [(str "a", (1, ⟨str "aa", none⟩)), (str "b", (2, ⟨str "bb", none⟩)),
       (str "c", (3, ⟨str "cc", none⟩))] 2 1 rfl rfl (by decide)).2.2.1,
   (claim_C4_pagination_law DEFAULT_SEARCH_CONFIG ⟨str "x", some 2, some 1, none⟩ [str "x"]
      [(str "a", (1, ⟨str "aa", none⟩)), (str "b", (2, ⟨str "bb", none⟩)),
       (str "c", (3, ⟨str "cc", none⟩))] 2 1 rfl rfl (by decide)).2.2.2⟩

/-! ## Lemmas: filters (C3) -/

theorem mem_insertByScoreDesc {α : Type} (score : α → Rat) (r x : α) :
    ∀ l : List α, x ∈ insertByScoreDesc score r l → x = r ∨ x ∈ l := by
  intro l
  induction l with
  | nil => intro h; simpa [insertByScoreDesc] using h
  | cons y ys ih =>
    intro h
    simp only [insertByScoreDesc] at h
    by_cases hc : score r < score y
    · rw [if_pos hc] at h
      rcases List.mem_cons.mp h with h | h
      · right; simp [h]
      · rcases ih h with h | h
        · left; exact h
        · right; exact List.mem_cons_of_mem _ h
    · rw [if_neg hc] at h
      rcases List.mem_cons.mp h with h | h
      · left; exact h
      · right; exact h

theorem mem_sortByScoreDesc {α : Type} (score : α → Rat) (x : α) :
    ∀ l : List α, x ∈ sortByScoreDesc score l → x ∈ l := by
  intro l
  induction l with
  | nil => intro h; simp [sortByScoreDesc] at h
  | cons y ys ih =>
    intro h
    simp only [sortByScoreDesc, List.foldr_cons] at h ih
    rcases mem_insertByScoreDesc score y x _ h with h | h
    · simp [h]
    · exact List.mem_cons_of_mem _ (ih h)

theorem imsiBuildResults_mem (st : IMSIState) (cfg : IMSIConfig) (query : Str)
    (filters : List (Str × Str)) (queryNgrams : List Str) :
    ∀ (scores : List (Str × Nat)) (acc : List IMSIResult),
      (∀ r ∈ acc, imsiPasses filters r.data = true) →
      ∀ r ∈ scores.foldl
        (fun acc2 e =>
          match alLookup st.documents e.1 with
          | none => acc2
          | some document =>
            if imsiPasses filters document then
              acc2 ++ [(⟨e.1, (e.2 : Rat) / (queryNgrams.length : Rat), document,
                        imsiHighlights cfg document query⟩ : IMSIResult)]
            else acc2)
        acc,
      imsiPasses filters r.data = true := by
  intro scores
  induction scores with
  | nil => intro acc hacc r hr; exact hacc r hr
  | cons e rest ih =>
    intro acc hacc r hr
    simp only [List.foldl_cons] at hr
    cases hdoc : alLookup st.documents e.1 with
    | none =>
      simp only [hdoc] at hr
      exact ih acc hacc r hr
    | some document =>
      simp only [hdoc] at hr
      by_cases hp : imsiPasses filters document = true
      · rw [if_pos hp] at hr
        refine ih _ ?_ r hr
        intro r2 hr2
        rcases List.mem_append.mp hr2 with h | h
        · exact hacc r2 h
        · simp only [List.mem_singleton] at h
          subst h
          exact hp
      · rw [if_neg hp] at hr
        exact ih acc hacc r hr

theorem imsiSearch_respects_filters (cfg : IMSIConfig) (st : IMSIState) (query : Str)
    (opts : SearchOptions) (r : IMSIResult) (hr : r ∈ imsiSearch cfg st query opts) :
    ∀ kv ∈ opts.filters, alLookup r.data kv.1 = some kv.2 := by
  intro kv hkv
  simp only [imsiSearch] at hr
  by_cases hq : (trimStr query).isEmpty = true
  · rw [if_pos hq] at hr
    simp at hr
  · rw [if_neg hq] at hr
    have h1 := List.mem_of_mem_take hr
    have h2 := List.mem_of_mem_drop h1
    have h3 := mem_sortByScoreDesc IMSIResult.score r _ h2
    have h4 := imsiBuildResults_mem st cfg query opts.filters
      (imsiGenerateNgrams cfg query) _ [] (by intro x hx; simp at hx) r h3
    have h5 := List.all_eq_true.mp h4 kv hkv
    exact of_decide_eq_true h5

/-- **C3** is false of the adapter search path: `query.filters` is never
read, so a document failing the filter is still returned.  Concretely:
two documents with identical content `"hello world"` differing only in
the metadata field `cat` (`"x"` vs `"y"`); a search for `"hello"` with
filter `cat = "x"` returns both, including document `b` whose `cat`
field is `"y"`. -/
theorem claim_C3_counterexample :
    ((memorySearch ⟨str "hello", none, none, some [(str "cat", str "x")]⟩
        (memoryIndexDocument (str "b") (str "hello world") (some [(str "cat", str "y")])
          (memoryIndexDocument (str "a") (str "hello world") (some [(str "cat", str "x")])
            (emptyMemoryState DEFAULT_SEARCH_CONFIG 10000)))).1.results.map
      (fun r => (r.id, r.data.metadata)))
      = [(str "a", some [(str "cat", str "x")]), (str "b", some [(str "cat", str "y")])] := by
  decide

/-- **C3 amended**: the adapter search path ignores `query.filters`
entirely — the response and resulting state are identical for any two
filter values, so non-matching documents are not excluded; only the
standalone `InMemorySearchIndex.search` applies filters, returning only
documents whose stored data field equals the filter value for every
filter key (the exclusion happening before sorting and pagination). -/
theorem claim_C3_amended_filters :
    (∀ (qq : Str) (lim off : Option Nat) (f1 f2 : Option (List (Str × Str)))
        (st : MemoryState),
      memorySearch ⟨qq, lim, off, f1⟩ st = memorySearch ⟨qq, lim, off, f2⟩ st) ∧
    (∀ (cfg : IMSIConfig) (st : IMSIState) (query : Str) (opts : SearchOptions)
        (r : IMSIResult), r ∈ imsiSearch cfg st query opts →
      ∀ kv ∈ opts.filters, alLookup r.data kv.1 = some kv.2) :=
  ⟨fun _ _ _ _ _ _ => rfl, imsiSearch_respects_filters⟩

/-- Witness for C3's amended claim: a concrete `InMemorySearchIndex`
state where the only returned document satisfies the filter. -/
theorem claim_C3_witness :
    ∀ kv ∈ [(str "cat", str "x")],
      alLookup (⟨str "a", 1/3, [(str "cat", str "x")], []⟩ : IMSIResult).data kv.1 = some kv.2 := by
  have h := claim_C3_amended_filters.2 ⟨3, [], false⟩
    ⟨[(str "a", [(str "cat", str "x")])], [(str "__a", [str "a"])]⟩
    (str "a") ⟨none, none, [(str "cat", str "x")]⟩
  intro kv hkv
  refine h ?_ ?_ kv hkv
  decide

/-! ## Lemmas: association lists and LRU eviction (C5) -/

theorem alLookup_eq_none_iff {α : Type} :
    ∀ (l : List (Str × α)) (k : Str), alLookup l k = none ↔ k ∉ l.map Prod.fst := by
  intro l k
  induction l with
  | nil => exact ⟨fun _ => by simp, fun _ => rfl⟩
  | cons p rest ih =>
    simp only [alLookup, List.map_cons, List.mem_cons]
    by_cases hk : p.1 = k
    · rw [if_pos hk]
      constructor
      · intro hc; cases hc
      · intro hc; exact absurd (Or.inl hk.symm) hc
    · rw [if_neg hk]
      rw [ih]
      constructor
      · intro h hc
        rcases hc with hc | hc
        · exact hk hc.symm
        · exact h hc
      · intro h hc
        exact h (Or.inr hc)

theorem exists_val_of_mem_keys {α : Type} :
    ∀ (l : List (Str × α)) (k : Str), k ∈ l.map Prod.fst → ∃ v, (k, v) ∈ l := by
  intro l k h
  rcases List.mem_map.mp h with ⟨p, hp, hpk⟩
  exact ⟨p.2, by rw [← hpk]; exact hp⟩

theorem alRemove_eq_self_of_not_mem {α : Type} :
    ∀ (l : List (Str × α)) (k : Str), k ∉ l.map Prod.fst → alRemove l k = l := by
  intro l k
  induction l with
  | nil => intro _; rfl
  | cons p rest ih =>
    intro h
    simp only [List.map_cons, List.mem_cons] at h
    push_neg at h
    simp only [alRemove, List.filter_cons]
    rw [if_pos (by simpa using fun hc => h.1 hc.symm)]
    have := ih (h.2)
    simp only [alRemove] at this
    rw [this]

theorem alRemove_length_of_mem {α : Type} :
    ∀ (l : List (Str × α)) (k : Str) (v : α), (l.map Prod.fst).Nodup → (k, v) ∈ l →
      (alRemove l k).length + 1 = l.length := by
  intro l
  induction l with
  | nil => intro k v _ h; simp at h
  | cons p rest ih =>
    intro k v hnodup hmem
    simp only [List.map_cons, List.nodup_cons] at hnodup
    rcases List.mem_cons.mp hmem with h | h
    · have hk : p.1 = k := by rw [← h]
      have hknot : k ∉ rest.map Prod.fst := hk ▸ hnodup.1
      simp only [alRemove, List.filter_cons]
      rw [if_neg (by simp [hk])]
      have := alRemove_eq_self_of_not_mem rest k hknot
      simp only [alRemove] at this
      rw [this, List.length_cons]
    · have hk : p.1 ≠ k := by
        intro hc
        exact hnodup.1 (hc ▸ List.mem_map.mpr ⟨(k, v), h, by rw [← hc]⟩)
      simp only [alRemove, List.filter_cons]
      rw [if_pos (by simpa using hk)]
      simp only [List.length_cons]
      have := ih k v hnodup.2 h
      simp only [alRemove] at this
      omega

theorem alLookup_alRemove_self {α : Type} :
    ∀ (l : List (Str × α)) (k : Str), alLookup (alRemove l k) k = none := by
  intro l k
  induction l with
  | nil => rfl
  | cons p rest ih =>
    simp only [alRemove, List.filter_cons]
    by_cases hk : p.1 = k
    · rw [if_neg (by simp [hk])]
      exact ih
    · rw [if_pos (by simpa using hk)]
      simp only [alLookup, if_neg hk]
      exact ih

theorem alLookup_alSet_self {α : Type} :
    ∀ (l : List (Str × α)) (k : Str) (v : α), alLookup (alSet l k v) k = some v := by
  intro l k v
  induction l with
  | nil => simp [alSet, alLookup]
  | cons p rest ih =>
    simp only [alSet]
    by_cases hk : p.1 = k
    · rw [if_pos hk]
      simp [alLookup]
    · rw [if_neg hk]
      simp only [alLookup, if_neg hk]
      exact ih

theorem alLookup_alSet_ne {α : Type} :
    ∀ (l : List (Str × α)) (k k2 : Str) (v : α), k2 ≠ k →
      alLookup (alSet l k v) k2 = alLookup l k2 := by
  intro l k k2 v hne
  induction l with
  | nil =>
    simp only [alSet, alLookup]
    rw [if_neg (fun hc => hne hc.symm)]
  | cons p rest ih =>
    simp only [alSet]
    by_cases hk : p.1 = k
    · rw [if_pos hk]
      simp only [alLookup]
      rw [if_neg (fun hc => hne hc.symm), if_neg (by rw [hk]; exact fun hc => hne hc.symm)]
    · rw [if_neg hk]
      simp only [alLookup]
      by_cases hk2 : p.1 = k2
      · rw [if_pos hk2, if_pos hk2]
      · rw [if_neg hk2, if_neg hk2]
        exact ih

theorem findLRU_foldl_min :
    ∀ (l : List (Str × Nat)) (b : Str × Nat),
      ∃ p, l.foldl
          (fun best q =>
            match best with
            | none => some q
            | some q2 => if q.2 < q2.2 then some q else best)
          (some b) = some p ∧ (p = b ∨ p ∈ l) ∧ p.2 ≤ b.2 ∧ ∀ q ∈ l, p.2 ≤ q.2 := by
  intro l
  induction l with
  | nil => intro b; exact ⟨b, rfl, Or.inl rfl, Nat.le_refl _, by simp⟩
  | cons q l2 ih =>
    intro b
    simp only [List.foldl_cons]
    by_cases hq : q.2 < b.2
    · rw [if_pos hq]
      rcases ih q with ⟨p, h1, h2, h3, h4⟩
      refine ⟨p, h1, ?_, by omega, ?_⟩
      · rcases h2 with h | h
        · exact Or.inr (by rw [h]; exact List.mem_cons_self q l2)
        · exact Or.inr (List.mem_cons_of_mem _ h)
      · intro q2 hq2
        rcases List.mem_cons.mp hq2 with h | h
        · rw [h]; exact h3
        · exact h4 q2 h
    · rw [if_neg hq]
      rcases ih b with ⟨p, h1, h2, h3, h4⟩
      refine ⟨p, h1, ?_, h3, ?_⟩
      · rcases h2 with h | h
        · exact Or.inl h
        · exact Or.inr (List.mem_cons_of_mem _ h)
      · intro q2 hq2
        rcases List.mem_cons.mp hq2 with h | h
        · rw [h]; omega
        · exact h4 q2 h

theorem findLRU_min (l : List (Str × Nat)) (hne : l ≠ []) :
    ∃ p : Str × Nat, findLRUDocument l = some p.1 ∧ p ∈ l ∧ ∀ q ∈ l, p.2 ≤ q.2 := by
  cases l with
  | nil => exact absurd rfl hne
  | cons b l2 =>
    rcases findLRU_foldl_min l2 b with ⟨p, h1, h2, h3, h4⟩
    refine ⟨p, ?_, ?_, ?_⟩
    · simp only [findLRUDocument, List.foldl_cons]
      rw [h1]
      rfl
    · rcases h2 with h | h
      · rw [h]; exact List.mem_cons_self b l2
      · exact List.mem_cons_of_mem _ h
    · intro q hq
      rcases List.mem_cons.mp hq with h | h
      · rw [h]; exact h3
      · exact h4 q h

theorem removeIdFromIndex_not_mem (id : Str) (idx : List (Str × List Str)) :
    ∀ p ∈ removeIdFromIndex id idx, id ∉ p.2 := by
  intro p hp
  unfold removeIdFromIndex at hp
  have h1 := (List.mem_filter.mp hp).1
  rcases List.mem_map.mp h1 with ⟨p0, _, hpe⟩
  rw [← hpe]
  intro hc
  have := (List.mem_filter.mp hc).2
  simp at this

theorem setAdd_not_mem {x id : Str} (h1 : x ∉ (l : List Str)) (h2 : x ≠ id) :
    x ∉ setAdd l id := by
  unfold setAdd
  by_cases hm : id ∈ l
  · rw [if_pos hm]; exact h1
  · rw [if_neg hm]
    intro hc
    rcases List.mem_append.mp hc with h | h
    · exact h1 h
    · simp only [List.mem_singleton] at h
      exact h2 h

theorem indexAddId_not_mem {x id : Str} (h2 : x ≠ id) :
    ∀ (idx : List (Str × List Str)) (gram : Str), (∀ p ∈ idx, x ∉ p.2) →
      ∀ p ∈ indexAddId idx gram id, x ∉ p.2 := by
  intro idx
  induction idx with
  | nil =>
    intro gram _ p hp
    simp only [indexAddId, List.mem_singleton] at hp
    subst hp
    simp only [List.mem_singleton]
    exact h2
  | cons q rest ih =>
    intro gram hall p hp
    simp only [indexAddId] at hp
    by_cases hg : q.1 = gram
    · rw [if_pos hg] at hp
      rcases List.mem_cons.mp hp with h | h
      · subst h
        exact setAdd_not_mem (hall q (List.mem_cons_self q rest)) h2
      · exact hall p (List.mem_cons_of_mem _ h)
    · rw [if_neg hg] at hp
      rcases List.mem_cons.mp hp with h | h
      · subst h
        exact hall q (List.mem_cons_self q rest)
      · exact ih gram (fun p2 hp2 => hall p2 (List.mem_cons_of_mem _ hp2)) p h

theorem addGrams_not_mem {x id : Str} (h2 : x ≠ id) :
    ∀ (grams : List Str) (idx : List (Str × List Str)), (∀ p ∈ idx, x ∉ p.2) →
      ∀ p ∈ addGrams idx grams id, x ∉ p.2 := by
  intro grams
  induction grams with
  | nil => intro idx hall p hp; exact hall p hp
  | cons g rest ih =>
    intro idx hall p hp
    simp only [addGrams, List.foldl_cons] at hp
    exact ih (indexAddId idx g id) (indexAddId_not_mem h2 idx g hall) p hp

theorem lru_eviction_step (st : MemoryState) (id content : Str)
    (metadata : Option (List (Str × Str)))
    (hnodup : (st.documents.map Prod.fst).Nodup)
    (hkeys : st.documentAccessOrder.map Prod.fst = st.documents.map Prod.fst)
    (hsize : st.documents.length = st.maxDocuments)
    (hcap : 1 ≤ st.maxDocuments)
    (hfresh : alLookup st.documents id = none) :
    ∃ p : Str × Nat,
      findLRUDocument st.documentAccessOrder = some p.1 ∧
      p ∈ st.documentAccessOrder ∧
      (∀ q ∈ st.documentAccessOrder, p.2 ≤ q.2) ∧
      p.1 ≠ id ∧
      alLookup (memoryIndexDocument id content metadata st).documents p.1 = none ∧
      (∀ e ∈ (memoryIndexDocument id content metadata st).ngramIndex, p.1 ∉ e.2) ∧
      (∀ e ∈ (memoryIndexDocument id content metadata st).edgegramIndex, p.1 ∉ e.2) ∧
      alLookup (memoryIndexDocument id content metadata st).documents id
        = some ⟨content, metadata⟩ := by
  have hlen_order : st.documentAccessOrder.length = st.documents.length := by
    have h := congrArg List.length hkeys
    simpa using h
  have hne : st.documentAccessOrder ≠ [] := by
    intro hc
    rw [hc] at hlen_order
    simp only [List.length_nil] at hlen_order
    omega
  rcases findLRU_min st.documentAccessOrder hne with ⟨p, hfind, hmem, hmin⟩
  have hpkey : p.1 ∈ st.documents.map Prod.fst := by
    rw [← hkeys]
    exact List.mem_map.mpr ⟨p, hmem, rfl⟩
  have hpid : p.1 ≠ id := by
    intro hc
    rw [alLookup_eq_none_iff] at hfresh
    rw [hc] at hpkey
    exact hfresh hpkey
  rcases exists_val_of_mem_keys _ _ hpkey with ⟨dv, hdv⟩
  obtain ⟨k, hk⟩ : ∃ k, st.maxDocuments = k + 1 := ⟨st.maxDocuments - 1, by omega⟩
  have hlenrm : (alRemove st.documents p.1).length = k := by
    have h := alRemove_length_of_mem st.documents p.1 dv hnodup hdv
    omega
  have hevict : evictLoop (st.documents.length + 1)
      { st with ngramIndex := removeIdFromIndex id st.ngramIndex,
                edgegramIndex := removeIdFromIndex id st.edgegramIndex }
      = memoryRemoveDocument p.1
        { st with ngramIndex := removeIdFromIndex id st.ngramIndex,
                  edgegramIndex := removeIdFromIndex id st.edgegramIndex } := by
    have hfind2 : findLRUDocument ({ st with ngramIndex := removeIdFromIndex id st.ngramIndex, edgegramIndex := removeIdFromIndex id st.edgegramIndex } : MemoryState).documentAccessOrder = some p.1 := hfind
    rw [hsize, hk]
    simp only [evictLoop]
    rw [if_pos (by simp [hsize, hk])]
    rw [hfind2]
    simp only [evictLoop]
    rw [if_neg ?hcond]
    case hcond =>
      simp only [memoryRemoveDocument]
      rw [hlenrm]
      omega
  have hmain : memoryIndexDocument id content metadata st =
      { searchConfig := st.searchConfig,
        documents := alSet (alRemove st.documents p.1) id ⟨content, metadata⟩,
        documentAccessOrder :=
          alSet (alRemove st.documentAccessOrder p.1) id (st.accessCounter + 1),
        ngramIndex := addGrams (removeIdFromIndex p.1 (removeIdFromIndex id st.ngramIndex))
          (generateSearchTerms st.searchConfig content).1 id,
        edgegramIndex := addGrams (removeIdFromIndex p.1 (removeIdFromIndex id st.edgegramIndex))
          (generateSearchTerms st.searchConfig content).2 id,
        maxDocuments := st.maxDocuments,
        accessCounter := st.accessCounter + 1 } := by
    simp only [memoryIndexDocument]
    rw [hevict]
    rfl
  refine ⟨p, hfind, hmem, hmin, hpid, ?_, ?_, ?_, ?_⟩
  · rw [hmain]
    show alLookup (alSet (alRemove st.documents p.1) id ⟨content, metadata⟩) p.1 = none
    rw [alLookup_alSet_ne _ _ _ _ hpid]
    exact alLookup_alRemove_self st.documents p.1
  · rw [hmain]
    exact addGrams_not_mem hpid _ _
      (removeIdFromIndex_not_mem p.1 (removeIdFromIndex id st.ngramIndex))
  · rw [hmain]
    exact addGrams_not_mem hpid _ _
      (removeIdFromIndex_not_mem p.1 (removeIdFromIndex id st.edgegramIndex))
  · rw [hmain]
    exact alLookup_alSet_self _ _ _

/-- **C5**: in the in-memory backend, whenever indexing a fresh document
would exceed the configured cap (the store is at capacity), the document
with the smallest access-counter value — the counter being bumped on
index and on search hit — is evicted: it is the one `findLRUDocument`
selects, its access value is minimal, it is gone from the document store
and from every n-gram and edge-gram posting set, while the new document
is stored.  Concretely at capacity 2: indexing `a`, `b`, `c` with no
intervening search evicts `a` (which becomes unfindable); searching `a`
between indexing `b` and `c` bumps `a`, so `b` is evicted instead. -/
theorem claim_C5_lru_eviction :
    (∀ (st : MemoryState) (id content : Str) (metadata : Option (List (Str × Str))),
      (st.documents.map Prod.fst).Nodup →
      st.documentAccessOrder.map Prod.fst = st.documents.map Prod.fst →
      st.documents.length = st.maxDocuments →
      1 ≤ st.maxDocuments →
      alLookup st.documents id = none →
      ∃ p : Str × Nat,
        findLRUDocument st.documentAccessOrder = some p.1 ∧
        p ∈ st.documentAccessOrder ∧
        (∀ q ∈ st.documentAccessOrder, p.2 ≤ q.2) ∧
        p.1 ≠ id ∧
        alLookup (memoryIndexDocument id content metadata st).documents p.1 = none ∧
        (∀ e ∈ (memoryIndexDocument id content metadata st).ngramIndex, p.1 ∉ e.2) ∧
        (∀ e ∈ (memoryIndexDocument id content metadata st).edgegramIndex, p.1 ∉ e.2) ∧
        alLookup (memoryIndexDocument id content metadata st).documents id
          = some ⟨content, metadata⟩) ∧
    (alLookup lruScenario1State.documents (str "a") = none ∧
     (∀ e ∈ lruScenario1State.ngramIndex, str "a" ∉ e.2) ∧
     (∀ e ∈ lruScenario1State.edgegramIndex, str "a" ∉ e.2) ∧
     (memorySearch ⟨str "apple", none, none, none⟩ lruScenario1State).1.results = [] ∧
     (alLookup lruScenario1State.documents (str "b")).isSome = true ∧
     (alLookup lruScenario1State.documents (str "c")).isSome = true) ∧
    (alLookup lruScenario2State.documents (str "b") = none ∧
     (alLookup lruScenario2State.documents (str "a")).isSome = true ∧
     (alLookup lruScenario2State.documents (str "c")).isSome = true) :=
  ⟨lru_eviction_step, by decide, by decide⟩

/-- Witness for C5's universal part: a one-document store at capacity 1;
indexing a fresh document `b` evicts the stored document. -/
theorem claim_C5_witness :
    ∃ p : Str × Nat,
      findLRUDocument lruWitnessState.documentAccessOrder = some p.1 ∧
      p ∈ lruWitnessState.documentAccessOrder ∧
      (∀ q ∈ lruWitnessState.documentAccessOrder, p.2 ≤ q.2) ∧
      p.1 ≠ str "b" ∧
      alLookup (memoryIndexDocument (str "b") (str "y") none lruWitnessState).documents p.1
        = none ∧
      (∀ e ∈ (memoryIndexDocument (str "b") (str "y") none lruWitnessState).ngramIndex,
        p.1 ∉ e.2) ∧
      (∀ e ∈ (memoryIndexDocument (str "b") (str "y") none lruWitnessState).edgegramIndex,
        p.1 ∉ e.2) ∧
      alLookup (memoryIndexDocument (str "b") (str "y") none lruWitnessState).documents
        (str "b") = some ⟨str "y", none⟩ :=
  claim_C5_lru_eviction.1 lruWitnessState (str "b") (str "y") none
    (by decide) (by decide) (by decide) (by decide) (by decide)

/-! ## Lemmas: score accumulation (C2) and assoc-list appends -/

theorem alLookup_append_singleton_self {α : Type} :
    ∀ (l : List (Str × α)) (k : Str) (v : α), alLookup l k = none →
      alLookup (l ++ [(k, v)]) k = some v := by
  intro l k v h
  induction l with
  | nil => simp [alLookup]
  | cons p rest ih =>
    rw [List.cons_append]
    simp only [alLookup] at h ⊢
    by_cases hk : p.1 = k
    · rw [if_pos hk] at h; cases h
    · rw [if_neg hk] at h ⊢
      exact ih h

theorem alLookup_append_singleton_ne {α : Type} :
    ∀ (l : List (Str × α)) (k k2 : Str) (v : α), k2 ≠ k →
      alLookup (l ++ [(k, v)]) k2 = alLookup l k2 := by
  intro l k k2 v hne
  induction l with
  | nil =>
    simp only [List.nil_append, alLookup]
    rw [if_neg (fun hc => hne hc.symm)]
  | cons p rest ih =>
    rw [List.cons_append]
    simp only [alLookup]
    by_cases hk : p.1 = k2
    · rw [if_pos hk, if_pos hk]
    · rw [if_neg hk, if_neg hk]
      exact ih

theorem scoreBump_scoreOf_self (documents : List (Str × DocData)) (w : Rat)
    (scores : List (Str × (Rat × DocData))) (docId : Str)
    (hdoc : (alLookup documents docId).isSome) :
    scoreOf (scoreBump documents w scores docId) docId = scoreOf scores docId + w := by
  cases hs : alLookup scores docId with
  | some sd =>
    simp only [scoreBump, hs]
    simp [scoreOf, alLookup_alSet_self, hs]
  | none =>
    cases hd : alLookup documents docId with
    | none => rw [hd] at hdoc; cases hdoc
    | some doc =>
      simp only [scoreBump, hs, hd]
      have h1 : alLookup (scores ++ [(docId, ((0 : Rat), doc))]) docId = some (0, doc) :=
        alLookup_append_singleton_self scores docId _ hs
      simp only [h1]
      simp [scoreOf, alLookup_alSet_self, hs]

theorem scoreBump_scoreOf_ne (documents : List (Str × DocData)) (w : Rat)
    (scores : List (Str × (Rat × DocData))) (d2 docId : Str) (hne : docId ≠ d2) :
    scoreOf (scoreBump documents w scores d2) docId = scoreOf scores docId := by
  cases hs : alLookup scores d2 with
  | some sd =>
    simp only [scoreBump, hs]
    simp [scoreOf, alLookup_alSet_ne _ _ _ _ hne]
  | none =>
    cases hd : alLookup documents d2 with
    | none =>
      simp only [scoreBump, hs, hd]
    | some doc =>
      simp only [scoreBump, hs, hd]
      have h1 : alLookup (scores ++ [(d2, ((0 : Rat), doc))]) d2 = some (0, doc) :=
        alLookup_append_singleton_self scores d2 _ hs
      simp only [h1]
      rw [scoreOf, alLookup_alSet_ne _ _ _ _ hne,
        alLookup_append_singleton_ne scores d2 docId _ hne]
      rfl

theorem redisBump_scoreOf_self (w : Rat) (scores : List (Str × (Rat × DocData)))
    (docId : Str) :
    scoreOf (redisBump w scores docId) docId = scoreOf scores docId + w := by
  cases hs : alLookup scores docId with
  | some sd =>
    simp only [redisBump, hs, Option.isSome_some, if_pos]
    simp [scoreOf, alLookup_alSet_self, hs]
  | none =>
    simp only [redisBump, hs, Option.isSome_none, Bool.false_eq_true, if_neg,
      not_false_iff]
    have h1 : alLookup (scores ++ [(docId, ((0 : Rat), (⟨[], none⟩ : DocData)))]) docId
        = some (0, ⟨[], none⟩) :=
      alLookup_append_singleton_self scores docId _ hs
    simp only [h1]
    simp [scoreOf, alLookup_alSet_self, hs]

theorem redisBump_scoreOf_ne (w : Rat) (scores : List (Str × (Rat × DocData)))
    (d2 docId : Str) (hne : docId ≠ d2) :
    scoreOf (redisBump w scores d2) docId = scoreOf scores docId := by
  cases hs : alLookup scores d2 with
  | some sd =>
    simp only [redisBump, hs, Option.isSome_some, if_pos]
    simp [scoreOf, alLookup_alSet_ne _ _ _ _ hne]
  | none =>
    simp only [redisBump, hs, Option.isSome_none, Bool.false_eq_true, if_neg,
      not_false_iff]
    have h1 : alLookup (scores ++ [(d2, ((0 : Rat), (⟨[], none⟩ : DocData)))]) d2
        = some (0, ⟨[], none⟩) :=
      alLookup_append_singleton_self scores d2 _ hs
    simp only [h1]
    rw [scoreOf, alLookup_alSet_ne _ _ _ _ hne,
      alLookup_append_singleton_ne scores d2 docId _ hne]
    rfl

theorem foldl_scoreBump_scoreOf (documents : List (Str × DocData)) (w : Rat)
    (docId : Str) (hdoc : (alLookup documents docId).isSome) :
    ∀ (ids : List Str) (scores : List (Str × (Rat × DocData))),
      scoreOf (ids.foldl (scoreBump documents w) scores) docId
        = scoreOf scores docId + (ids.count docId : Rat) * w := by
  intro ids
  induction ids with
  | nil => intro scores; simp
  | cons a rest ih =>
    intro scores
    rw [List.foldl_cons, ih]
    by_cases ha : a = docId
    · subst ha
      rw [scoreBump_scoreOf_self documents w scores a hdoc, List.count_cons_self]
      push_cast
      ring
    · rw [scoreBump_scoreOf_ne documents w scores a docId (fun hc => ha hc.symm),
        List.count_cons_of_ne (fun hc => ha hc.symm) rest]

theorem foldl_redisBump_scoreOf (w : Rat) (docId : Str) :
    ∀ (ids : List Str) (scores : List (Str × (Rat × DocData))),
      scoreOf (ids.foldl (redisBump w) scores) docId
        = scoreOf scores docId + (ids.count docId : Rat) * w := by
  intro ids
  induction ids with
  | nil => intro scores; simp
  | cons a rest ih =>
    intro scores
    rw [List.foldl_cons, ih]
    by_cases ha : a = docId
    · subst ha
      rw [redisBump_scoreOf_self w scores a, List.count_cons_self]
      push_cast
      ring
    · rw [redisBump_scoreOf_ne w scores a docId (fun hc => ha hc.symm),
        List.count_cons_of_ne (fun hc => ha hc.symm) rest]

theorem scoreGramPass_scoreOf (documents : List (Str × DocData))
    (idx : List (Str × List Str)) (w : Rat) (docId : Str)
    (hdoc : (alLookup documents docId).isSome) :
    ∀ (grams : List Str) (scores : List (Str × (Rat × DocData))),
      scoreOf (scoreGramPass documents idx w grams scores) docId
        = scoreOf scores docId
          + (grams.map (fun g =>
              (((alLookup idx g).getD []).count docId : Rat) * w)).sum := by
  intro grams
  induction grams with
  | nil => intro scores; simp [scoreGramPass]
  | cons g rest ih =>
    intro scores
    simp only [scoreGramPass] at ih ⊢
    rw [List.foldl_cons, ih]
    cases hidx : alLookup idx g with
    | some ids =>
      simp only [hidx, List.map_cons, List.sum_cons, Option.getD_some]
      rw [foldl_scoreBump_scoreOf documents w docId hdoc ids scores]
      ring
    | none =>
      simp only [hidx, List.map_cons, List.sum_cons, Option.getD_none, List.count_nil]
      push_cast
      ring

theorem redisEdgegramPass_scoreOf (cfg : SearchConfig) (keyPrefix : Str)
    (st : RedisState) (docId : Str) :
    ∀ (grams : List Str) (scores : List (Str × (Rat × DocData))),
      scoreOf (redisEdgegramPass cfg keyPrefix st grams scores) docId
        = scoreOf scores docId
          + (grams.map (fun g =>
              ((smembers st (getKey keyPrefix (str "edgegram") g)).count docId : Rat)
                * (((g.length : Rat) / (cfg.maxEdgegram : Rat)) * cfg.edgegramWeight))).sum := by
  intro grams
  induction grams with
  | nil => intro scores; simp [redisEdgegramPass]
  | cons g rest ih =>
    intro scores
    simp only [redisEdgegramPass] at ih ⊢
    rw [List.foldl_cons, ih]
    rw [foldl_redisBump_scoreOf _ docId (smembers st (getKey keyPrefix (str "edgegram") g))
      scores]
    simp only [List.map_cons, List.sum_cons]
    ring

/-- C1: the spec requires `indexDocument` to retract all prior postings
for an id before writing the new ones. `UpstashRedisAdapter.indexDocument`
never retracts: after indexing id `d` with content `"cat"` and then
re-indexing the same id with content `"dog"`, the n-gram posting set for
`cat` — a gram produced only by the first content — still contains `d`,
even though no gram of `"dog"` is `"cat"`; a search on `cat` would still
reach the document. `MemoryAdapter.indexDocument` does retract: after
the same pair of calls its n-gram index has no `cat` posting set at
all. -/
theorem claim_C1_upstash_stale_postings :
    smembers
        (upstashIndexDocument (str "pnp-ws:") (str "d") (str "dog") none
          (upstashIndexDocument (str "pnp-ws:") (str "d") (str "cat") none
            emptyRedisState))
        (getKey (str "pnp-ws:") (str "ngram") (str "cat")) = [str "d"] ∧
    str "cat" ∉ buildNGrams (str "dog") 3 ++ buildEdgeGrams (str "dog") 2 10 ∧
    alLookup
        (memoryIndexDocument (str "d") (str "dog") none
          (memoryIndexDocument (str "d") (str "cat") none
            (emptyMemoryState DEFAULT_SEARCH_CONFIG 10000))).ngramIndex
        (str "cat") = none := by
  refine ⟨by decide, by decide, by decide⟩

/-- C2 counterexample: on the one-document corpus `a ↦ "tutorial"` and
the query `"tutorial"`, the in-memory backend scores the document `105`
(a flat `+edgegramWeight` per edge-gram posting hit, with the whole
accumulated sum then multiplied by `ngramWeight` inside
`calculateRelevanceScore`), while the Redis backend scores it `213/2`
(`(gramLength / maxEdgegram) × edgegramWeight` per hit, added unscaled
to the exact-match boost): the two backends disagree on the relevance
score of the same candidate, and only the Redis backend implements the
proportional edge-gram rule. -/
theorem claim_C2_counterexample :
    ((memorySearch ⟨str "tutorial", none, none, none⟩
        (memoryIndexDocument (str "a") (str "tutorial") none
          (emptyMemoryState DEFAULT_SEARCH_CONFIG 10000))).1.results.map
      (fun r => (r.id, r.score))) = [(str "a", 105)] ∧
    ((unifiedPerformSearch DEFAULT_SEARCH_CONFIG (str "pnp-ws:")
        ⟨str "tutorial", none, none, none⟩
        (unifiedIndexDocument DEFAULT_SEARCH_CONFIG (str "pnp-ws:") (str "a")
          (str "tutorial") none emptyRedisState)).results.map
      (fun r => (r.id, r.score))) = [(str "a", 213 / 2)] ∧
    (105 : Rat) ≠ 213 / 2 := by
  refine ⟨by decide, by decide, by decide⟩

/-- C2 (amended): the two backends accumulate edge-gram scores by
different laws. In `MemoryAdapter.search`, one term's edge-gram pass
adds the flat weight `edgegramWeight` once per occurrence of the
document id in a queried gram's posting set (provided the document is
stored, which is what lets the score entry be created). In
`UnifiedRedisAdapter.performSearch`, the edge-gram pass instead adds the
proportional `(gramLength / maxEdgegram) × edgegramWeight` per posting
hit — only the Redis backend implements the spec's proportional
rule. -/
theorem claim_C2_amended_edgegram_scoring (cfg : SearchConfig)
    (documents : List (Str × DocData)) (idx : List (Str × List Str))
    (keyPrefix : Str) (st : RedisState) (grams : List Str)
    (scoresM scoresR : List (Str × (Rat × DocData))) (docId : Str)
    (hdoc : (alLookup documents docId).isSome) :
    scoreOf (scoreGramPass documents idx cfg.edgegramWeight grams scoresM) docId
      = scoreOf scoresM docId
        + (grams.map (fun g =>
            (((alLookup idx g).getD []).count docId : Rat) * cfg.edgegramWeight)).sum ∧
    scoreOf (redisEdgegramPass cfg keyPrefix st grams scoresR) docId
      = scoreOf scoresR docId
        + (grams.map (fun g =>
            ((smembers st (getKey keyPrefix (str "edgegram") g)).count docId : Rat)
              * (((g.length : Rat) / (cfg.maxEdgegram : Rat)) * cfg.edgegramWeight))).sum :=
  ⟨scoreGramPass_scoreOf documents idx cfg.edgegramWeight docId hdoc grams scoresM,
   redisEdgegramPass_scoreOf cfg keyPrefix st docId grams scoresR⟩

/-- Witness for the amended C2 theorem at a concrete input: one stored
document `a`, the single queried gram `tu` whose posting sets contain
`a` in both backends; the memory pass adds the flat `1`, the Redis pass
adds `(2/10) × 1`. -/
theorem claim_C2_witness :
    (alLookup [(str "a", (⟨str "x", none⟩ : DocData))] (str "a")).isSome ∧
    (scoreOf
        (scoreGramPass [(str "a", ⟨str "x", none⟩)] [(str "tu", [str "a"])]
          DEFAULT_SEARCH_CONFIG.edgegramWeight [str "tu"] []) (str "a")
      = scoreOf [] (str "a")
        + ([str "tu"].map (fun g =>
            (((alLookup [(str "tu", [str "a"])] g).getD []).count (str "a") : Rat)
              * DEFAULT_SEARCH_CONFIG.edgegramWeight)).sum ∧
    scoreOf
        (redisEdgegramPass DEFAULT_SEARCH_CONFIG (str "p:")
          ⟨[], [(getKey (str "p:") (str "edgegram") (str "tu"), [str "a"])]⟩
          [str "tu"] []) (str "a")
      = scoreOf [] (str "a")
        + ([str "tu"].map (fun g =>
            ((smembers
                (⟨[], [(getKey (str "p:") (str "edgegram") (str "tu"), [str "a"])]⟩ :
                  RedisState)
                (getKey (str "p:") (str "edgegram") g)).count (str "a") : Rat)
              * (((g.length : Rat) / (DEFAULT_SEARCH_CONFIG.maxEdgegram : Rat))
                  * DEFAULT_SEARCH_CONFIG.edgegramWeight))).sum) :=
  ⟨by decide,
   claim_C2_amended_edgegram_scoring DEFAULT_SEARCH_CONFIG
     [(str "a", ⟨str "x", none⟩)] [(str "tu", [str "a"])] (str "p:")
     ⟨[], [(getKey (str "p:") (str "edgegram") (str "tu"), [str "a"])]⟩
     [str "tu"] [] [] (str "a") (by decide)⟩

end RatEval
